import Mathlib

/-!
The module `dcp`: schema-compiled deep copy.

A shallow embedding of `index.js`.  The module analyses a sample value into a
descriptor (`analyze`), renders the descriptor into the source text of a copy
function through a `%s` template (`createFuncStr`, `createFunc`), and keeps the
compiled functions in a table (`DeepCopy.define`).

JavaScript strings are lists of characters (`Str`).  The host operations the
source relies on are modelled next to the functions that use them:
`String.prototype.replace` on a literal pattern (`jsReplace`), property
assignment on a plain object (`setOwn`), property lookup (`getProp`) and the
`Function` constructor on the fragment of the language the generator emits
(`parseBody`, `Proc.call`).
-/

namespace Dcp

/-! ## Strings and `String.prototype.replace` -/

/-- JavaScript string: a sequence of characters. -/
abbrev Str := List Char

/-- Split a string around the first occurrence of `pat`: the text before the
match and the text after it. -/
def splitFirst (pat : Str) : Str → Option (Str × Str)
  | [] => if pat = [] then some ([], []) else none
  | c :: t =>
    if pat.isPrefixOf (c :: t) then some ([], (c :: t).drop pat.length)
    else (splitFirst pat t).map fun p => (c :: p.1, p.2)

/-- Expansion of a replacement string (`GetSubstitution` of the language
standard) for a pattern without capture groups: `$$` is a dollar sign, `$&` the
matched text, dollar-backtick the text before the match, dollar-apostrophe the
text after it; every other character, a lone `$` included, stands for itself. -/
def getSubstitution (matched before after : Str) : Str → Str
  | [] => []
  | [c] => [c]
  | c :: d :: r =>
    if c = '$' then
      if d = '$' then '$' :: getSubstitution matched before after r
      else if d = '&' then matched ++ getSubstitution matched before after r
      else if d = Char.ofNat 96 then before ++ getSubstitution matched before after r
      else if d = Char.ofNat 39 then after ++ getSubstitution matched before after r
      else c :: getSubstitution matched before after (d :: r)
    else c :: getSubstitution matched before after (d :: r)

/-- Replace the first occurrence of `pat` (`str.replace(/pat/, value)`). -/
def replaceFirst (pat value str : Str) : Str :=
  match splitFirst pat str with
  | none => str
  | some (before, after) => before ++ getSubstitution pat before after value ++ after

/-- Replace every occurrence of a non-empty `pat`, scanning left to right
without revisiting replaced text (`str.replace(/pat/g, value)`).  `skip` counts
the characters of the current match still to be dropped, `seen` is the text
already scanned, in reverse. -/
def replaceAllAux (pat value : Str) : Nat → Str → Str → Str
  | _, _, [] => []
  | skip + 1, seen, c :: t => replaceAllAux pat value skip (c :: seen) t
  | 0, seen, c :: t =>
    if pat.isPrefixOf (c :: t) ∧ pat ≠ [] then
      getSubstitution pat seen.reverse ((c :: t).drop pat.length) value
        ++ replaceAllAux pat value (pat.length - 1) (c :: seen) t
    else c :: replaceAllAux pat value 0 (c :: seen) t

/-- Regular expression of the source: a literal text, with or without the `g`
flag.  The three expressions of the source (`/%s/`, `/,%s/`, `/,%s/g`) contain
no metacharacter. -/
structure Pattern where
  text : Str
  global : Bool
  deriving DecidableEq, Repr

/-- The default pattern `/%s/`. -/
def holeExp : Pattern := ⟨"%s".toList, false⟩

/-- The pattern `/,%s/`. -/
def commaHoleExp : Pattern := ⟨",%s".toList, false⟩

/-- The pattern `/,%s/g`. -/
def commaHoleAllExp : Pattern := ⟨",%s".toList, true⟩

/-- Model of `str.replace(exp, value)`. -/
def jsReplace (str : Str) (exp : Pattern) (value : Str) : Str :=
  if exp.global then replaceAllAux exp.text value 0 [] str
  else replaceFirst exp.text value str

/-- Source function `replace(str, value, exp)` on a defined string:
`str && str.replace(exp || /%s/, value)`.  The empty string is falsy and is
returned as it is.  The one place where `str` can be `undefined` is the
`parentStr` of `createFuncStr`, which handles it. -/
def replace (str value : Str) (exp : Option Pattern) : Str :=
  if str = [] then str else jsReplace str (exp.getD holeExp) value

/-- Source function `resolveDefault(type)`: the text appended to an access path
for a leaf of kind `type`.  The numbers and keywords passed to `replace` are
converted to their string form (`0`, `false`, `null`). -/
def resolveDefault (type : String) : Str :=
  let str := " || %s".toList
  if type = "string" then replace str "\"\"".toList none
  else if type = "number" then replace str "0".toList none
  else if type = "boolean" then replace str "false".toList none
  else if type = "null" then replace str "null".toList none
  else []

/-! ## Descriptors and the code generator -/

/-- Result of `analyze`: a kind string at every leaf, an array for an array, a
plain object (own enumerable keys in enumeration order) for an object. -/
inductive Desc where
  | kind (type : String)
  | seq (items : List Desc)
  | keyed (fields : List (String × Desc))
  deriving Repr

/-- The expression `a || b` on strings where `a` may be undefined. -/
def orStr (a : Option Str) (b : Str) : Str :=
  match a with
  | some (c :: t) => c :: t
  | _ => b

mutual
/-- Source function `createFuncStr(obj, key, parentStr)`.  A leaf fills the
first hole of the parent template with its access path and default; a
container puts its own template in the first hole, lets every child fill the
template in turn, and removes the first `,%s`. -/
def createFuncStr : Desc → Str → Option Str → Str
  | .kind type, key, parentStr =>
    match parentStr with
    | some (c :: t) => replace (c :: t) (key ++ resolveDefault type) none
    | _ => key ++ resolveDefault type
  | .seq items, key, parentStr =>
    let childStr := "[%s],%s".toList
    let str := orStr (parentStr.map fun p => replace p childStr none) childStr
    replace (createFuncStrItems items 0 key str) [] (some commaHoleExp)
  | .keyed fields, key, parentStr =>
    let childStr := "\x7b%s\x7d,%s".toList
    let str := orStr (parentStr.map fun p => replace p childStr none) childStr
    replace (createFuncStrFields fields key str) [] (some commaHoleExp)
/-- The loop of `map` over an array descriptor, with the callback of
`createFuncStr`; `index` is the position of the first remaining element. -/
def createFuncStrItems : List Desc → Nat → Str → Str → Str
  | [], _, _, str => str
  | cObj :: rest, index, key, str =>
    let str1 := replace str "%s,%s".toList none
    let pKey := key ++ "[\"".toList ++ (Nat.repr index).toList ++ "\"]".toList
    createFuncStrItems rest (index + 1) key (createFuncStr cObj pKey (some str1))
/-- The loop of `map` over a keyed descriptor, with the callback of
`createFuncStr`. -/
def createFuncStrFields : List (String × Desc) → Str → Str → Str
  | [], _, str => str
  | (cKey, cObj) :: rest, key, str =>
    let str1 := replace str (cKey.toList ++ ": %s,%s".toList) none
    let pKey := key ++ "[\"".toList ++ cKey.toList ++ "\"]".toList
    createFuncStrFields rest key (createFuncStr cObj pKey (some str1))
end

/-- The text handed to the `Function` constructor by `createFunc`. -/
def createFuncBody (desc : Desc) : Str :=
  let base := "\x7b var newObj = %s; return newObj; \x7d".toList
  let str := createFuncStr desc "obj".toList none
  replace base (replace str [] (some commaHoleAllExp)) none

/-! ## Values, property assignment and `analyze` -/

/-- JavaScript values of the data the module copies: the primitive leaves,
function leaves (told apart by an identity), arrays and plain objects.  An
object lists its own enumerable properties in enumeration order; an array lists
its elements (a hole reads as `undefined`).  Numbers are the integers: `NaN`,
fractions and the negative zero are not represented. -/
inductive Value where
  | undefined
  | null
  | bool (b : Bool)
  | num (n : Int)
  | str (s : String)
  | func (id : Nat)
  | arr (items : List Value)
  | obj (fields : List (String × Value))
  deriving Repr

/-- The `typeof` operator. -/
def typeOf : Value → String
  | .undefined => "undefined"
  | .null => "object"
  | .bool _ => "boolean"
  | .num _ => "number"
  | .str _ => "string"
  | .func _ => "function"
  | .arr _ => "object"
  | .obj _ => "object"

/-- Names every plain object inherits from `Object.prototype`.  Each of them
reads as a truthy value (a built-in function, or the prototype object itself for
`__proto__`) on an object that has no own property of that name. -/
def objectPrototypeKeys : List String :=
  ["constructor", "toString", "toLocaleString", "valueOf", "hasOwnProperty",
   "isPrototypeOf", "propertyIsEnumerable", "__proto__", "__defineGetter__",
   "__defineSetter__", "__lookupGetter__", "__lookupSetter__"]

/-- Own properties of a plain object after the assignment `result[key] = value`.
An existing property keeps its place and takes the new value, a new one is added
last (the callers add keys in the enumeration order of the object they read, so
the list stays in enumeration order).  The name `__proto__` is the inherited
accessor: assigning to it never creates an own property. -/
def setOwn {α : Type} (fields : List (String × α)) (key : String) (value : α) :
    List (String × α) :=
  if key = "__proto__" then fields
  else if fields.any (fun p => p.1 = key) then
    fields.map fun p => if p.1 = key then (key, value) else p
  else fields ++ [(key, value)]

/-- Source function `map(obj, iter)` on an array: `result[index] = iter(obj[index], index)`
for every index below the length, counted from `index`. -/
def mapArray {α β : Type} (iter : α → Nat → β) : List α → Nat → List β
  | [], _ => []
  | x :: rest, index => iter x index :: mapArray iter rest (index + 1)

/-- Source function `map(obj, iter)` on a plain object: starting from the empty
`result`, `result[key] = iter(obj[key], key)` for every key of `Object.keys(obj)`
in order. -/
def mapObject {α β : Type} (iter : α → String → β) :
    List (String × α) → List (String × β) → List (String × β)
  | [], result => result
  | (key, x) :: rest, result => mapObject iter rest (setOwn result key (iter x key))

mutual
/-- Source function `analyze(obj)`. -/
def analyze : Value → Desc
  | .null => .kind "null"
  | .arr items => .seq (analyzeItems items)
  | .obj fields => .keyed (analyzeFields fields [])
  | .undefined => .kind (typeOf .undefined)
  | .bool b => .kind (typeOf (.bool b))
  | .num n => .kind (typeOf (.num n))
  | .str s => .kind (typeOf (.str s))
  | .func id => .kind (typeOf (.func id))
/-- The loop of `map` over an array, with `analyze` as the callback. -/
def analyzeItems : List Value → List Desc
  | [] => []
  | x :: rest => analyze x :: analyzeItems rest
/-- The loop of `map` over a plain object, with `analyze` as the callback;
`result` is the object built so far. -/
def analyzeFields : List (String × Value) → List (String × Desc) → List (String × Desc)
  | [], result => result
  | (key, x) :: rest, result => analyzeFields rest (setOwn result key (analyze x))
end

/-! ## The `Function` constructor on the generated fragment -/

/-- Errors a call can raise.  `error` is `new Error(message)`; `typeError` and
`syntaxError` are the errors of the language; `unsupported` marks a program or a
property read that lies outside the fragment modelled here, about which nothing
is asserted. -/
inductive JSError where
  | error (message : String)
  | typeError
  | syntaxError
  | unsupported
  deriving DecidableEq, Repr

/-- The default literals the generator can emit after `||`. -/
inductive Lit where
  | emptyString
  | zero
  | false
  | null
  deriving DecidableEq, Repr

/-- Expressions of the generated fragment: an access path rooted at the
parameter `obj` with an optional `|| literal`, an array literal, an object
literal with identifier keys. -/
inductive Expr where
  | path (keys : List String) (dflt : Option Lit)
  | arrayLit (items : List Expr)
  | objectLit (fields : List (String × Expr))
  deriving Repr

/-- Opening brace. -/
def lbrace : Char := Char.ofNat 123

/-- Closing brace. -/
def rbrace : Char := Char.ofNat 125

/-- Characters of an ASCII identifier name. -/
def isIdentChar (c : Char) : Bool :=
  c.isAlphanum || c = '_' || c = '$'

/-- Read the longest run of characters satisfying `p`. -/
def spanChars (p : Char → Bool) : Str → Str × Str
  | [] => ([], [])
  | c :: t => if p c then ((spanChars p t).1.cons c, (spanChars p t).2) else ([], c :: t)

/-- Property name of an object literal followed by `: `: an ASCII identifier
name (reserved words are allowed there). -/
def parseKey (s : Str) : Except JSError (String × Str) :=
  match s with
  | [] => .error .unsupported
  | c :: _ =>
    if c = '%' then .error .syntaxError
    else if isIdentChar c ∧ ¬ c.isDigit then
      match spanChars isIdentChar s with
      | (name, ':' :: ' ' :: rest) => .ok (String.mk name, rest)
      | _ => .error .unsupported
    else .error .unsupported

/-- Accessors `["name"]` following `obj`; a name is any run of characters
without a double quote, a backslash or a line break. -/
def parseAccessors : Nat → Str → Except JSError (List String × Str)
  | 0, _ => .error .unsupported
  | fuel + 1, s =>
    match s with
    | '[' :: '"' :: t =>
      match spanChars (fun c => c ≠ '"' ∧ c ≠ Char.ofNat 92 ∧ c ≠ Char.ofNat 10 ∧ c ≠ Char.ofNat 13) t with
      | (name, '"' :: ']' :: rest) =>
        match parseAccessors fuel rest with
        | .ok (names, rest1) => .ok (String.mk name :: names, rest1)
        | .error e => .error e
      | _ => .error .unsupported
    | _ => .ok ([], s)

/-- The optional ` || literal` after a path. -/
def parseDefault (s : Str) : Option Lit × Str :=
  match s with
  | ' ' :: '|' :: '|' :: ' ' :: '"' :: '"' :: rest => (some .emptyString, rest)
  | ' ' :: '|' :: '|' :: ' ' :: '0' :: rest => (some .zero, rest)
  | ' ' :: '|' :: '|' :: ' ' :: 'f' :: 'a' :: 'l' :: 's' :: 'e' :: rest => (some .false, rest)
  | ' ' :: '|' :: '|' :: ' ' :: 'n' :: 'u' :: 'l' :: 'l' :: rest => (some .null, rest)
  | _ => (none, s)

mutual
/-- Parse one expression of the fragment and return the unread text.  A `%` where
an expression or a property name must start is a syntax error of the language;
any other text outside the fragment is `unsupported`. -/
def parseExpr : Nat → Str → Except JSError (Expr × Str)
  | 0, _ => .error .unsupported
  | fuel + 1, s =>
    match s with
    | '%' :: _ => .error .syntaxError
    | '[' :: ']' :: rest => .ok (.arrayLit [], rest)
    | '[' :: rest =>
      match parseItems fuel rest with
      | .ok (items, rest1) => .ok (.arrayLit items, rest1)
      | .error e => .error e
    | 'o' :: 'b' :: 'j' :: rest =>
      match parseAccessors fuel rest with
      | .ok (keys, rest1) => .ok (.path keys (parseDefault rest1).1, (parseDefault rest1).2)
      | .error e => .error e
    | c :: rest =>
      if c = lbrace then
        match rest with
        | d :: rest1 =>
          if d = rbrace then .ok (.objectLit [], rest1)
          else
            match parseFields fuel rest with
            | .ok (fields, rest2) => .ok (.objectLit fields, rest2)
            | .error e => .error e
        | [] => .error .unsupported
      else .error .unsupported
    | [] => .error .unsupported
/-- Elements of an array literal up to the closing bracket. -/
def parseItems : Nat → Str → Except JSError (List Expr × Str)
  | 0, _ => .error .unsupported
  | fuel + 1, s =>
    match parseExpr fuel s with
    | .ok (e, ',' :: rest) =>
      match parseItems fuel rest with
      | .ok (es, rest1) => .ok (e :: es, rest1)
      | .error err => .error err
    | .ok (e, ']' :: rest) => .ok ([e], rest)
    | .ok _ => .error .unsupported
    | .error err => .error err
/-- Properties of an object literal up to the closing brace. -/
def parseFields : Nat → Str → Except JSError (List (String × Expr) × Str)
  | 0, _ => .error .unsupported
  | fuel + 1, s =>
    match parseKey s with
    | .ok (key, rest) =>
      match parseExpr fuel rest with
      | .ok (e, c :: rest1) =>
        if c = ',' then
          match parseFields fuel rest1 with
          | .ok (fs, rest2) => .ok ((key, e) :: fs, rest2)
          | .error err => .error err
        else if c = rbrace then .ok ([(key, e)], rest1)
        else .error .unsupported
      | .ok _ => .error .unsupported
      | .error err => .error err
    | .error err => .error err
end

/-- Parse a function body of the form `{ var newObj = EXPR; return newObj; }`. -/
def parseBody (body : Str) : Except JSError Expr :=
  let pre := "\x7b var newObj = ".toList
  if pre.isPrefixOf body then
    match parseExpr (2 * body.length + 2) (body.drop pre.length) with
    | .ok (e, rest) =>
      if rest = "; return newObj; \x7d".toList then .ok e else .error .unsupported
    | .error err => .error err
  else .error .unsupported

/-! ## Running a compiled function -/

/-- Truthiness of a value (`ToBoolean`). -/
def truthy : Value → Bool
  | .undefined => false
  | .null => false
  | .bool b => b
  | .num n => n ≠ 0
  | .str s => s ≠ ""
  | .func _ => true
  | .arr _ => true
  | .obj _ => true

/-- Own property of a plain object. -/
def lookupOwn {α : Type} (fields : List (String × α)) (key : String) : Option α :=
  match fields with
  | [] => none
  | (k, v) :: rest => if k = key then some v else lookupOwn rest key

/-- The array index a property name denotes, if it is the canonical decimal
form of a number (digits only, no leading zero). -/
def arrayIndex (key : String) : Option Nat :=
  match key.toList with
  | [] => none
  | c :: t =>
    if (c :: t).all Char.isDigit ∧ (c ≠ '0' ∨ t = []) then
      some ((c :: t).foldl (fun n d => 10 * n + (d.toNat - 48)) 0)
    else none

/-- Property read `base[key]`.  Reading from `undefined` or `null` throws a
`TypeError`.  A plain object gives its own property, `undefined` for a name it
neither owns nor inherits; an array gives the element at an index (`undefined`
past the end) and its `length`.  Inherited properties and reads from the other
primitives are outside the model. -/
def getProp (base : Value) (key : String) : Except JSError Value :=
  match base with
  | .undefined => .error .typeError
  | .null => .error .typeError
  | .obj fields =>
    match lookupOwn fields key with
    | some v => .ok v
    | none => if key ∈ objectPrototypeKeys then .error .unsupported else .ok .undefined
  | .arr items =>
    match arrayIndex key with
    | some i => .ok (items.getD i .undefined)
    | none => if key = "length" then .ok (.num items.length) else .error .unsupported
  | _ => .error .unsupported

/-- Follow an access path from a value. -/
def getPath (base : Value) : List String → Except JSError Value
  | [] => .ok base
  | key :: rest =>
    match getProp base key with
    | .ok v => getPath v rest
    | .error e => .error e

/-- Value of a default literal. -/
def Lit.value : Lit → Value
  | .emptyString => .str ""
  | .zero => .num 0
  | .false => .bool Bool.false
  | .null => .null

mutual
/-- Evaluate an expression of the fragment with the parameter `obj` bound to
`input`.  Array elements and object properties are evaluated left to right and
the first error ends the evaluation. -/
def evalExpr (input : Value) : Expr → Except JSError Value
  | .path keys dflt =>
    match getPath input keys with
    | .ok v =>
      match dflt with
      | some d => if truthy v then .ok v else .ok d.value
      | none => .ok v
    | .error e => .error e
  | .arrayLit items =>
    match evalItems input items with
    | .ok vs => .ok (.arr vs)
    | .error e => .error e
  | .objectLit fields =>
    match evalFields input fields [] with
    | .ok fs => .ok (.obj fs)
    | .error e => .error e
/-- Elements of an array literal. -/
def evalItems (input : Value) : List Expr → Except JSError (List Value)
  | [] => .ok []
  | e :: rest =>
    match evalExpr input e with
    | .ok v =>
      match evalItems input rest with
      | .ok vs => .ok (v :: vs)
      | .error err => .error err
    | .error err => .error err
/-- Properties of an object literal, defined in order on the object built so
far.  A `__proto__: value` entry sets the prototype instead of a property and is
outside the model. -/
def evalFields (input : Value) :
    List (String × Expr) → List (String × Value) → Except JSError (List (String × Value))
  | [], result => .ok result
  | (key, e) :: rest, result =>
    if key = "__proto__" then .error .unsupported
    else
      match evalExpr input e with
      | .ok v => evalFields input rest (setOwn result key v)
      | .error err => .error err
end

/-- Function made by `new Function('obj', source)`: its source text and the
expression it returns. -/
structure Proc where
  source : Str
  code : Expr
  deriving Repr

/-- Call a compiled function; without an argument the parameter is `undefined`. -/
def Proc.call (f : Proc) (arg : Option Value) : Except JSError Value :=
  evalExpr (arg.getD .undefined) f.code

/-- Source function `createFunc(structure)`: build the body and hand it to the
`Function` constructor, which throws on a body that does not parse. -/
def createFunc (desc : Desc) : Except JSError Proc :=
  match parseBody (createFuncBody desc) with
  | .ok e => .ok ⟨createFuncBody desc, e⟩
  | .error err => .error err

/-! ## The registry -/

/-- The object exported by the module: `_defined` lists the own properties of
the table in creation order. -/
structure DeepCopy where
  _defined : List (String × Proc)
  deriving Repr

/-- Constructor `DeepCopy()`: the table starts as the empty object. -/
def DeepCopy.new : DeepCopy := ⟨[]⟩

/-- Truthiness of `this._defined[key]`: an own entry is a function, and a name
inherited from `Object.prototype` reads as a truthy built-in. -/
def DeepCopy.isDefined (self : DeepCopy) (key : String) : Bool :=
  (lookupOwn self._defined key).isSome || key ∈ objectPrototypeKeys

/-- Source method `DeepCopy.prototype.define(key, obj)`: the function returned
or the error thrown, and the registry after the call.  Both throws happen before
the assignment to `this._defined[key]`.  The `Function` constructor is the one
of `createFunc`: where it answers `unsupported` the body is outside the parsed
fragment and the pair says nothing about the code, which may well compile the
body and store the function.  `DeepCopy.defineWith` is the same method for any
outcome of the right-hand side of the assignment. -/
def DeepCopy.define (self : DeepCopy) (key : String) (obj : Value) :
    Except JSError Proc × DeepCopy :=
  if self.isDefined key then (.error (.error (key ++ "is already defined.")), self)
  else
    match createFunc (analyze obj) with
    | .ok func => (.ok func, ⟨setOwn self._defined key func⟩)
    | .error err => (.error err, self)

/-- Source method `DeepCopy.prototype.define(key, obj)` on the table
`this._defined`, with the right-hand side `createFunc(analyze(obj))` of the
assignment as the parameter `build`, over any type `S` of samples and any type
`F` of function objects: the method throws when `this._defined[key]` reads
truthy (an own entry is a function object, which is truthy), otherwise it
stores and returns the function `build` returns, and whatever `build` throws
passes through with the table as it was.  `DeepCopy.define` is the case
`build obj = createFunc (analyze obj)`. -/
def DeepCopy.defineWith {S F : Type} (build : S → Except JSError F)
    (table : List (String × F)) (key : String) (obj : S) :
    Except JSError F × List (String × F) :=
  if (lookupOwn table key).isSome || key ∈ objectPrototypeKeys then
    (.error (.error (key ++ "is already defined.")), table)
  else
    match build obj with
    | .ok func => (.ok func, setOwn table key func)
    | .error err => (.error err, table)

/-- The table after a sequence of `define` calls, whatever each returned. -/
def DeepCopy.defineAllWith {S F : Type} (build : S → Except JSError F)
    (table : List (String × F)) : List (String × S) → List (String × F)
  | [] => table
  | (key, obj) :: rest =>
    DeepCopy.defineAllWith build (DeepCopy.defineWith build table key obj).2 rest

/-- Define a schema from `sample` on a fresh registry and call the function
returned with `arg`. -/
def defineAndCall (key : String) (sample : Value) (arg : Option Value) : Except JSError Value :=
  match (DeepCopy.new.define key sample).1 with
  | .ok func => func.call arg
  | .error err => .error err

/-! ## Samples with shared and cyclic structure -/

/-- A value as it sits in memory: a primitive or function leaf, or a reference
to an array or object of the heap. -/
inductive HValue where
  | undefined
  | null
  | bool (b : Bool)
  | num (n : Int)
  | str (s : String)
  | func (id : Nat)
  | ref (address : Nat)
  deriving DecidableEq, Repr

/-- An array or a plain object of the heap. -/
inductive HObject where
  | arr (items : List HValue)
  | obj (fields : List (String × HValue))
  deriving DecidableEq, Repr

/-- The heap: the object at address `i` is the `i`-th entry. -/
abbrev Heap := List HObject

/-- The loop of `map` over an array with a callback that may fail to return. -/
def mapArrayOpt {α β : Type} (iter : α → Option β) : List α → Option (List β)
  | [] => some []
  | x :: rest =>
    match iter x with
    | some y =>
      match mapArrayOpt iter rest with
      | some ys => some (y :: ys)
      | none => none
    | none => none

/-- The loop of `map` over a plain object with a callback that may fail to
return. -/
def mapObjectOpt {α β : Type} (iter : α → Option β) :
    List (String × α) → List (String × β) → Option (List (String × β))
  | [], result => some result
  | (key, x) :: rest, result =>
    match iter x with
    | some y => mapObjectOpt iter rest (setOwn result key y)
    | none => none

/-- Source function `analyze(obj)` on a value of the heap.  `depth` bounds the
nesting of calls: the result is `none` when the recursion needs more than
`depth` nested calls (or meets a dangling reference). -/
def analyzeHeap (heap : Heap) : Nat → HValue → Option Desc
  | 0, _ => none
  | depth + 1, v =>
    match v with
    | .null => some (.kind "null")
    | .undefined => some (.kind "undefined")
    | .bool _ => some (.kind "boolean")
    | .num _ => some (.kind "number")
    | .str _ => some (.kind "string")
    | .func _ => some (.kind "function")
    | .ref address =>
      match heap.get? address with
      | some (.arr items) => (mapArrayOpt (analyzeHeap heap depth) items).map Desc.seq
      | some (.obj fields) => (mapObjectOpt (analyzeHeap heap depth) fields []).map Desc.keyed
      | none => none

/-- Read a heap value as a tree, following references through at most `depth`
nested containers. -/
def readHeap (heap : Heap) : Nat → HValue → Option Value
  | 0, _ => none
  | depth + 1, v =>
    match v with
    | .null => some .null
    | .undefined => some .undefined
    | .bool b => some (.bool b)
    | .num n => some (.num n)
    | .str s => some (.str s)
    | .func id => some (.func id)
    | .ref address =>
      match heap.get? address with
      | some (.arr items) => (mapArrayOpt (readHeap heap depth) items).map Value.arr
      | some (.obj fields) =>
        (mapArrayOpt (fun p => (readHeap heap depth p.2).map fun v => (p.1, v)) fields).map
          Value.obj
      | none => none

/-- The sample of the test on circular structure: `obj = {a: 1, b: obj2}` and
`obj2 = {a: 2, b: obj}`, at addresses 0 and 1. -/
def circularSample : Heap :=
  [.obj [("a", .num 1), ("b", .ref 1)], .obj [("a", .num 2), ("b", .ref 0)]]

/-- The sample of the test on multi circular structure: `obj1 = {a: 1, b: obj2, c: obj3}`,
`obj2 = {a: 2, b: obj1, c: obj3}` and `obj3 = {a: 3, b: obj2, c: obj1}`, at
addresses 0, 1 and 2. -/
def multiCircularSample : Heap :=
  [.obj [("a", .num 1), ("b", .ref 1), ("c", .ref 2)],
   .obj [("a", .num 2), ("b", .ref 0), ("c", .ref 2)],
   .obj [("a", .num 3), ("b", .ref 1), ("c", .ref 0)]]

/-! ## Reference renderings used in the statements -/

mutual
/-- The descriptor section 4.1 of the specification assigns to a sample: the
kind `null` for `null`, the `typeof` kind for any other leaf, a sequence of the
descriptors of the elements for an array, a keyed node with the sample's keys
in order for a plain object. -/
def shapeOf : Value → Desc
  | .null => .kind "null"
  | .arr items => .seq (shapeOfItems items)
  | .obj fields => .keyed (shapeOfFields fields)
  | .undefined => .kind "undefined"
  | .bool _ => .kind "boolean"
  | .num _ => .kind "number"
  | .str _ => .kind "string"
  | .func _ => .kind "function"
/-- Descriptors of the elements of an array, in order. -/
def shapeOfItems : List Value → List Desc
  | [] => []
  | x :: rest => shapeOf x :: shapeOfItems rest
/-- Descriptors of the properties of an object, under their keys, in order. -/
def shapeOfFields : List (String × Value) → List (String × Desc)
  | [] => []
  | (key, x) :: rest => (key, shapeOf x) :: shapeOfFields rest
end

/-- Keys of an association list, in order. -/
def keysOf {α : Type} (fields : List (String × α)) : List String :=
  fields.map fun p => p.1

mutual
/-- Every object of the value has pairwise different keys, as the own
properties of an object do, and none of them is named `__proto__`. -/
def ordinaryKeys : Value → Bool
  | .arr items => ordinaryKeysItems items
  | .obj fields =>
    decide (keysOf fields).Nodup && decide ("__proto__" ∉ keysOf fields)
      && ordinaryKeysFields fields
  | .undefined => true
  | .null => true
  | .bool _ => true
  | .num _ => true
  | .str _ => true
  | .func _ => true
/-- The same for every element of an array. -/
def ordinaryKeysItems : List Value → Bool
  | [] => true
  | x :: rest => ordinaryKeys x && ordinaryKeysItems rest
/-- The same for every property value of an object. -/
def ordinaryKeysFields : List (String × Value) → Bool
  | [] => true
  | (_, x) :: rest => ordinaryKeys x && ordinaryKeysFields rest
end

/-- The accessor text for a property name: bracket, quoted name, bracket. -/
def accessor (name : Str) : Str :=
  '[' :: '"' :: name ++ ['"', ']']

/-- Text of a leaf of kind `type` read at the access path `path`: the path
followed by the default suffix of the kind. -/
def leafText (path : Str) (type : String) : Str :=
  path ++ resolveDefault type

/-- Text of one property of an object literal whose value is a leaf: the key,
a colon, and the leaf read under that key of `path`. -/
def flatEntry (path : Str) (p : String × String) : Str :=
  p.1.toList ++ ':' :: ' ' :: leafText (path ++ accessor p.1.toList) p.2

/-- The entries of the given fields, each followed by a comma. -/
def flatEntries (path : Str) : List (String × String) → Str
  | [] => []
  | p :: rest => flatEntry path p ++ ',' :: flatEntries path rest

/-- Texts joined by commas. -/
def joinComma : List Str → Str
  | [] => []
  | [e] => e
  | e :: f :: rest => e ++ ',' :: joinComma (f :: rest)

/-- The keyed descriptor whose fields are leaves of the given kinds. -/
def flatDesc (fields : List (String × String)) : Desc :=
  .keyed (fields.map fun p => (p.1, Desc.kind p.2))

/-- Characters of a plain identifier: ASCII letters, digits and the underscore. -/
def isPlainChar (c : Char) : Bool :=
  c.isAlphanum || c = '_'

/-- A plain identifier: a non-empty run of plain characters that does not start
with a digit. -/
def isPlainIdent (name : String) : Bool :=
  match name.toList with
  | [] => false
  | c :: t => isPlainChar c && !c.isDigit && t.all isPlainChar

/-- The default a kind substitutes, as a literal of the generated fragment. -/
def litOf (type : String) : Option Lit :=
  if type = "string" then some .emptyString
  else if type = "number" then some .zero
  else if type = "boolean" then some .false
  else if type = "null" then some .null
  else none

/-- The value the specification gives a scalar field of kind `type` when the
input holds `x` there (`undefined` when absent): `x` when it is truthy or the
kind has no default, the default of the kind otherwise. -/
def substituted (type : String) (x : Value) : Value :=
  match litOf type with
  | some d => if truthy x then x else d.value
  | none => x

/-- Kind of a value as `analyze` records it: `null` for `null`, the `typeof`
kind otherwise. -/
def kindOf (v : Value) : String :=
  match v with
  | .null => "null"
  | other => typeOf other

/-- The expression read back from the entry of a leaf field: the one-step path
under the key, with the default literal of the kind. -/
def flatExpr (p : String × String) : String × Expr :=
  (p.1, .path [p.1] (litOf p.2))

/-- A leaf value: anything but an array or an object. -/
def isScalar : Value → Bool
  | .arr _ => false
  | .obj _ => false
  | _ => true

/-! ## The direct rendering of a descriptor -/

/-- The expression `createFunc` puts in the body: the text of `createFuncStr`
at the path `obj`, with every `,%s` removed. -/
def createFuncExpr (desc : Desc) : Str :=
  replace (createFuncStr desc "obj".toList none) [] (some commaHoleAllExp)

mutual
/-- The literal section 4.3 of the specification assigns to a descriptor at an
access path: a leaf is the path followed by the default suffix of its kind, a
sequence is its elements between brackets and a keyed node its `key: value`
entries between braces, joined by commas, each child rendered at the path of
its parent followed by the accessor of its index or key. -/
def render : Desc → Str → Str
  | .kind type, path => path ++ resolveDefault type
  | .seq items, path => '[' :: joinComma (renderItems items 0 path) ++ [']']
  | .keyed fields, path => lbrace :: joinComma (renderFields fields path) ++ [rbrace]
/-- The renderings of the elements of a sequence; `index` is the position of the
first one. -/
def renderItems : List Desc → Nat → Str → List Str
  | [], _, _ => []
  | c :: rest, index, path =>
    render c (path ++ accessor (Nat.repr index).toList) :: renderItems rest (index + 1) path
/-- The entries of a keyed node: the key as it is, a colon, a blank and the
rendering of the child. -/
def renderFields : List (String × Desc) → Str → List Str
  | [], _ => []
  | (key, c) :: rest, path =>
    (key.toList ++ ':' :: ' ' :: render c (path ++ accessor key.toList))
      :: renderFields rest path
end

/-- The text contains `%s`; `afterPercent` tells whether the character just
before the text is a `%`. -/
def hasHoleFrom (afterPercent : Bool) : Str → Bool
  | [] => false
  | c :: t => (afterPercent && c = 's') || hasHoleFrom (c = '%') t

/-- The text contains the placeholder `%s`. -/
def hasHole (s : Str) : Bool :=
  hasHoleFrom false s

/-- A field name free of `%s` and of `$`. -/
def keyOk (key : String) : Bool :=
  !hasHole key.toList && !key.toList.contains '$'

mutual
/-- Every field name of the descriptor is free of `%s` and of `$`. -/
def keysOk : Desc → Bool
  | .kind _ => true
  | .seq items => keysOkItems items
  | .keyed fields => keysOkFields fields
/-- The same for the elements of a sequence. -/
def keysOkItems : List Desc → Bool
  | [] => true
  | c :: rest => keysOk c && keysOkItems rest
/-- The same for the fields of a keyed node, their own names included. -/
def keysOkFields : List (String × Desc) → Bool
  | [] => true
  | (key, c) :: rest => keyOk key && keysOk c && keysOkFields rest
end

/-- A leaf of the descriptor. -/
def Desc.isLeaf : Desc → Bool
  | .kind _ => true
  | _ => false

/-- The children of a container, without their keys; a leaf has none. -/
def Desc.children : Desc → List Desc
  | .kind _ => []
  | .seq items => items
  | .keyed fields => fields.map fun p => p.2

/-- A container with at least one child, all of them leaves. -/
def Desc.isFlat (d : Desc) : Bool :=
  !d.isLeaf && !d.children.isEmpty && d.children.all Desc.isLeaf

/-- A descriptor of depth at most two: a container with at least one child,
each child a leaf or a container with at least one child, all leaves. -/
def Desc.isDepthTwo (d : Desc) : Bool :=
  !d.isLeaf && !d.children.isEmpty && d.children.all fun c => c.isLeaf || c.isFlat

mutual
/-- Every container of the descriptor has at least one child. -/
def noEmpty : Desc → Bool
  | .kind _ => true
  | .seq items => !items.isEmpty && noEmptyItems items
  | .keyed fields => !fields.isEmpty && noEmptyFields fields
/-- The same for the elements of a sequence. -/
def noEmptyItems : List Desc → Bool
  | [] => true
  | c :: rest => noEmpty c && noEmptyItems rest
/-- The same for the fields of a keyed node. -/
def noEmptyFields : List (String × Desc) → Bool
  | [] => true
  | (_, c) :: rest => noEmpty c && noEmptyFields rest
end

mutual
/-- Two samples have the same shape: the same nesting, the same array lengths,
the same field names in the same order, and the same kind at every leaf. -/
def sameShape : Value → Value → Bool
  | .arr xs, v =>
    match v with
    | .arr ys => sameShapeItems xs ys
    | _ => false
  | .obj fs, v =>
    match v with
    | .obj gs => sameShapeFields fs gs
    | _ => false
  | .undefined, v => isScalar v && kindOf v = "undefined"
  | .null, v => isScalar v && kindOf v = "null"
  | .bool _, v => isScalar v && kindOf v = "boolean"
  | .num _, v => isScalar v && kindOf v = "number"
  | .str _, v => isScalar v && kindOf v = "string"
  | .func _, v => isScalar v && kindOf v = "function"
/-- The same for the elements of two arrays, position by position. -/
def sameShapeItems : List Value → List Value → Bool
  | [], ys => ys.isEmpty
  | x :: xs, ys =>
    match ys with
    | y :: rest => sameShape x y && sameShapeItems xs rest
    | [] => false
/-- The same for the properties of two objects, position by position. -/
def sameShapeFields : List (String × Value) → List (String × Value) → Bool
  | [], gs => gs.isEmpty
  | (key, x) :: fs, gs =>
    match gs with
    | (other, y) :: rest => key = other && sameShape x y && sameShapeFields fs rest
    | [] => false
end

/-! ## Bookkeeping for templates whose keys may contain `%` -/

/-- Whether the text, read after a character that is (`afterPercent`) or is not
a `%`, ends in a `%`. -/
def afterText (afterPercent : Bool) : Str → Bool
  | [] => afterPercent
  | c :: t => afterText (c = '%') t

/-- The text has no `%s` and does not end in `%`, so that no `%s` appears when
a text without `%s` is put after it. -/
def safe (s : Str) : Bool :=
  !hasHole s && !afterText false s

/-- The text `,%s` repeated `n` times. -/
def junk : Nat → Str
  | 0 => []
  | n + 1 => ',' :: '%' :: 's' :: junk n

/-- Texts each followed by a comma. -/
def withCommas : List Str → Str
  | [] => []
  | e :: rest => e ++ ',' :: withCommas rest

/-- The children of a container as the loop of `createFuncStr` meets them: the
text put before the hole of the child (the key, a colon and a blank for a keyed
node, nothing for a sequence), the name used in the accessor, and the child. -/
def fieldEntries (fields : List (String × Desc)) : List (Str × Str × Desc) :=
  fields.map fun p => (p.1.toList ++ [':', ' '], p.1.toList, p.2)

/-- The same for the elements of a sequence, from position `index` on. -/
def itemEntries : List Desc → Nat → List (Str × Str × Desc)
  | [], _ => []
  | c :: rest, index => ([], (Nat.repr index).toList, c) :: itemEntries rest (index + 1)

/-- The entries of a container; a leaf has none. -/
def Desc.entries : Desc → List (Str × Str × Desc)
  | .kind _ => []
  | .seq items => itemEntries items 0
  | .keyed fields => fieldEntries fields

/-- The character that opens the literal of a container. -/
def Desc.opener : Desc → Char
  | .keyed _ => lbrace
  | _ => '['

/-- The character that closes the literal of a container. -/
def Desc.closer : Desc → Char
  | .keyed _ => rbrace
  | _ => ']'

/-- The loop of `createFuncStr` over the entries of a container. -/
def entryLoop : List (Str × Str × Desc) → Str → Str → Str
  | [], _, str => str
  | e :: rest, key, str =>
    entryLoop rest key
      (createFuncStr e.2.2 (key ++ accessor e.2.1)
        (some (replace str (e.1 ++ "%s,%s".toList) none)))

/-- The direct renderings of the entries of a container at `path`. -/
def renderEntries (entries : List (Str × Str × Desc)) (path : Str) : List Str :=
  entries.map fun e => e.1 ++ render e.2.2 (path ++ accessor e.2.1)

/-- The number of entries whose child is a container. -/
def containerCount : List (Str × Str × Desc) → Nat
  | [] => 0
  | e :: rest => (if e.2.2.isLeaf then 0 else 1) + containerCount rest

/-- An entry whose texts keep the template readable: the text before the hole
is safe and has no `$`, the accessor name has no `%s` and no `$`. -/
def entryOk (e : Str × Str × Desc) : Bool :=
  safe e.1 && !e.1.contains '$' && !hasHole e.2.1 && !e.2.1.contains '$'

/-- An access path that keeps the template readable: safe and without `$`. -/
def pathOk (path : Str) : Bool :=
  safe path && !path.contains '$'

/-- One turn of the loop: the text the child leaves in the template.  The hole
is replaced by the entry, a comma and a new hole, followed by `count` times
`,%s` in front of the text that followed the hole. -/
def stepForm (key : Str) (e : Str × Str × Desc) (count : Nat) : Prop :=
  ∀ pre post : Str, safe pre = true →
    createFuncStr e.2.2 (key ++ accessor e.2.1)
        (some (replace (pre ++ '%' :: 's' :: post) (e.1 ++ "%s,%s".toList) none))
      = (pre ++ (e.1 ++ render e.2.2 (key ++ accessor e.2.1)) ++ [','])
        ++ '%' :: 's' :: (junk count ++ post)

/-! ## Properties of the table operations -/

theorem lookupOwn_append_fresh {α : Type} (fields : List (String × α)) (key : String) (v : α)
    (h : lookupOwn fields key = none) : lookupOwn (fields ++ [(key, v)]) key = some v := by
  induction fields with
  | nil => simp [lookupOwn]
  | cons p rest ih =>
    obtain ⟨k, x⟩ := p
    by_cases hk : k = key
    · simp [lookupOwn, hk] at h
    · simp only [lookupOwn, hk, if_false] at h
      simp [lookupOwn, hk, ih h]

theorem lookupOwn_append_of_some {α : Type} (fields extra : List (String × α)) (key : String)
    (v : α) (h : lookupOwn fields key = some v) : lookupOwn (fields ++ extra) key = some v := by
  induction fields with
  | nil => simp [lookupOwn] at h
  | cons p rest ih =>
    obtain ⟨k, x⟩ := p
    by_cases hk : k = key
    · simpa [lookupOwn, hk] using h
    · simp only [lookupOwn, hk, if_false] at h
      simp [lookupOwn, hk, ih h]

theorem lookupOwn_cons {α : Type} (k : String) (x : α) (rest : List (String × α))
    (key : String) :
    lookupOwn ((k, x) :: rest) key = if k = key then some x else lookupOwn rest key := rfl

theorem lookupOwn_update_other {α : Type} (fields : List (String × α)) (key other : String)
    (v : α) (hne : other ≠ key) :
    lookupOwn (fields.map fun p => if p.1 = other then (other, v) else p) key
      = lookupOwn fields key := by
  induction fields with
  | nil => rfl
  | cons p rest ih =>
    obtain ⟨k, x⟩ := p
    rw [List.map_cons]
    by_cases hko : k = other
    · subst hko
      rw [if_pos rfl, lookupOwn_cons, lookupOwn_cons, if_neg hne, if_neg hne, ih]
    · rw [if_neg hko, lookupOwn_cons, lookupOwn_cons, ih]

theorem any_eq_false_of_lookupOwn_none {α : Type} (fields : List (String × α)) (key : String)
    (h : lookupOwn fields key = none) : (fields.any fun p => p.1 = key) = false := by
  induction fields with
  | nil => rfl
  | cons p rest ih =>
    obtain ⟨k, x⟩ := p
    by_cases hk : k = key
    · simp [lookupOwn, hk] at h
    · simp only [lookupOwn, hk, if_false] at h
      simp [hk, ih h]

/-- Assigning a fresh, ordinary key makes it an own property with that value. -/
theorem lookupOwn_setOwn_fresh {α : Type} (fields : List (String × α)) (key : String) (v : α)
    (hproto : key ≠ "__proto__") (h : lookupOwn fields key = none) :
    lookupOwn (setOwn fields key v) key = some v := by
  simp [setOwn, hproto, any_eq_false_of_lookupOwn_none fields key h,
    lookupOwn_append_fresh fields key v h]

/-- Assigning to another key leaves an existing property as it is. -/
theorem lookupOwn_setOwn_other {α : Type} (fields : List (String × α)) (key other : String)
    (v w : α) (hne : other ≠ key) (h : lookupOwn fields key = some v) :
    lookupOwn (setOwn fields other w) key = some v := by
  unfold setOwn
  split_ifs with h1 h2
  · exact h
  · rw [lookupOwn_update_other fields key other w hne]; exact h
  · exact lookupOwn_append_of_some fields _ key v h

/-- The method `define` of the model is `defineWith` at the compile step of the
model. -/
theorem define_eq_defineWith (self : DeepCopy) (key : String) (obj : Value) :
    self.define key obj
      = ((DeepCopy.defineWith (fun o => createFunc (analyze o)) self._defined key obj).1,
          ⟨(DeepCopy.defineWith (fun o => createFunc (analyze o)) self._defined key obj).2⟩) := by
  unfold DeepCopy.define DeepCopy.defineWith DeepCopy.isDefined
  split_ifs
  · rfl
  · cases hc : createFunc (analyze obj) <;> simp only [hc]

/-- On a key the table holds, `define` throws and keeps the table, whatever the
sample and the compile step. -/
theorem defineWith_of_entry {S F : Type} (build : S → Except JSError F)
    (table : List (String × F)) (key : String) (func : F) (obj : S)
    (h : lookupOwn table key = some func) :
    DeepCopy.defineWith build table key obj
      = (.error (.error (key ++ "is already defined.")), table) := by
  unfold DeepCopy.defineWith
  rw [if_pos (by simp [h])]

/-- A `define` call never changes an entry the table already has, whatever the
compile step does. -/
theorem defineWith_preserves_entry {S F : Type} (build : S → Except JSError F)
    (table : List (String × F)) (key : String) (func : F)
    (h : lookupOwn table key = some func) (other : String) (obj : S) :
    lookupOwn (DeepCopy.defineWith build table other obj).2 key = some func := by
  unfold DeepCopy.defineWith
  split_ifs with hd
  · exact h
  · cases hc : build obj with
    | error err => exact h
    | ok f =>
      have hne : other ≠ key := by
        intro heq
        subst heq
        simp [h] at hd
      exact lookupOwn_setOwn_other table key other func f hne h

theorem defineAllWith_preserves_entry {S F : Type} (build : S → Except JSError F)
    (calls : List (String × S)) (table : List (String × F)) (key : String) (func : F)
    (h : lookupOwn table key = some func) :
    lookupOwn (DeepCopy.defineAllWith build table calls) key = some func := by
  induction calls generalizing table with
  | nil => exact h
  | cons c rest ih =>
    obtain ⟨k, obj⟩ := c
    exact ih _ (defineWith_preserves_entry build table key func h k obj)

/-- A `define` call that returns stores the function it returns under the key,
whatever the compile step. -/
theorem defineWith_ok_entry {S F : Type} (build : S → Except JSError F)
    (table : List (String × F)) (key : String) (obj : S) (func : F)
    (h : (DeepCopy.defineWith build table key obj).1 = .ok func) :
    lookupOwn (DeepCopy.defineWith build table key obj).2 key = some func := by
  unfold DeepCopy.defineWith at h ⊢
  by_cases hd : ((lookupOwn table key).isSome || decide (key ∈ objectPrototypeKeys)) = true
  · rw [if_pos hd] at h
    cases h
  · rw [if_neg hd] at h ⊢
    cases hc : build obj with
    | error err => simp [hc] at h
    | ok f =>
      simp only [hc] at h ⊢
      injection h with h
      subst h
      simp only [Bool.or_eq_true, not_or, Option.isSome_iff_exists, decide_eq_true_eq] at hd
      have hnone : lookupOwn table key = none := by
        cases hl : lookupOwn table key with
        | none => rfl
        | some v => exact absurd ⟨v, hl⟩ hd.1
      have hproto : key ≠ "__proto__" := by
        intro heq
        apply hd.2
        subst heq
        decide
      exact lookupOwn_setOwn_fresh table key f hproto hnone

/-- The sample `\x7b0: 1\x7d` is outside the fragment of the model: its body
`\x7b var newObj = \x7b0: obj["0"] || 0\x7d; return newObj; \x7d` has a numeric property
name, which `parseBody` does not read. -/
theorem createFunc_numeric_key_unsupported :
    createFunc (analyze (.obj [("0", .num 1)])) = .error .unsupported := rfl

/-- Under any compile step that returns a function for the sample `\x7b0: 1\x7d`, as
the engine does, the first `define('k', \x7b0: 1\x7d)` on the empty table stores the
function and a second `define` on `k` throws. -/
theorem defineWith_twice_numeric_key {F : Type} (build : Value → Except JSError F) (f : F)
    (hb : build (.obj [("0", .num 1)]) = .ok f) (sample : Value) :
    DeepCopy.defineWith build [] "k" (.obj [("0", .num 1)]) = (.ok f, [("k", f)])
      ∧ DeepCopy.defineWith build [("k", f)] "k" sample
        = (.error (.error "kis already defined."), [("k", f)]) := by
  constructor
  · have hfresh : ((lookupOwn ([] : List (String × F)) "k").isSome
        || decide ("k" ∈ objectPrototypeKeys)) = false := by
      have hk : decide ("k" ∈ objectPrototypeKeys) = false := by decide
      rw [hk]
      rfl
    unfold DeepCopy.defineWith
    simp only [hfresh, hb]
    rfl
  · exact defineWith_of_entry build _ "k" f sample (by simp [lookupOwn])

/-! ## `analyze` against the descriptor of the specification -/

/-- Assigning a key the object does not have, other than `__proto__`, adds the
property last. -/
theorem setOwn_fresh {α : Type} (fields : List (String × α)) (key : String) (v : α)
    (hproto : key ≠ "__proto__") (h : key ∉ keysOf fields) :
    setOwn fields key v = fields ++ [(key, v)] := by
  have hany : (fields.any fun p => decide (p.1 = key)) = false := by
    rw [List.any_eq_false]
    intro p hp hpk
    exact h (List.mem_map.2 ⟨p, hp, by simpa using hpk⟩)
  simp [setOwn, hproto, hany]

theorem keysOf_append {α : Type} (a b : List (String × α)) :
    keysOf (a ++ b) = keysOf a ++ keysOf b := by
  simp [keysOf]

mutual
theorem analyze_eq_shapeOf : ∀ v : Value, ordinaryKeys v = true → analyze v = shapeOf v
  | .null, _ => rfl
  | .undefined, _ => rfl
  | .bool _, _ => rfl
  | .num _, _ => rfl
  | .str _, _ => rfl
  | .func _, _ => rfl
  | .arr items, h => by
    simp only [ordinaryKeys] at h
    simp only [analyze, shapeOf, analyzeItems_eq_shapeOfItems items h]
  | .obj fields, h => by
    simp only [ordinaryKeys, Bool.and_eq_true, decide_eq_true_eq] at h
    simp only [analyze, shapeOf]
    rw [analyzeFields_eq_shapeOfFields fields [] h.2 h.1.1 h.1.2 (by simp [keysOf])]
    rfl
theorem analyzeItems_eq_shapeOfItems :
    ∀ items : List Value, ordinaryKeysItems items = true → analyzeItems items = shapeOfItems items
  | [], _ => rfl
  | x :: rest, h => by
    simp only [ordinaryKeysItems, Bool.and_eq_true] at h
    simp only [analyzeItems, shapeOfItems, analyze_eq_shapeOf x h.1,
      analyzeItems_eq_shapeOfItems rest h.2]
theorem analyzeFields_eq_shapeOfFields :
    ∀ (fields : List (String × Value)) (result : List (String × Desc)),
      ordinaryKeysFields fields = true → (keysOf fields).Nodup → "__proto__" ∉ keysOf fields →
      (∀ k ∈ keysOf fields, k ∉ keysOf result) →
      analyzeFields fields result = result ++ shapeOfFields fields
  | [], result, _, _, _, _ => by simp [analyzeFields, shapeOfFields]
  | (key, x) :: rest, result, h, hnd, hproto, hfresh => by
    simp only [ordinaryKeysFields, Bool.and_eq_true] at h
    simp only [keysOf, List.map_cons, List.nodup_cons, List.mem_cons, not_or] at hnd hproto hfresh
    have hkey : key ≠ "__proto__" := fun e => hproto.1 e.symm
    have hnew : key ∉ keysOf result := hfresh key (Or.inl rfl)
    simp only [analyzeFields, shapeOfFields, analyze_eq_shapeOf x h.1,
      setOwn_fresh result key (shapeOf x) hkey hnew]
    rw [analyzeFields_eq_shapeOfFields rest (result ++ [(key, shapeOf x)]) h.2 hnd.2 hproto.2]
    · simp
    · intro k hk
      rw [keysOf_append]
      simp only [keysOf, List.map_cons, List.map_nil, List.mem_append, List.mem_singleton, not_or]
      refine ⟨hfresh k (Or.inr hk), ?_⟩
      rintro rfl
      exact hnd.1 hk
end

/-! ## Replacement in a template whose text before the hole has no `%` -/

theorem splitFirst_hole (pre post : Str) (h : '%' ∉ pre) :
    splitFirst ['%', 's'] (pre ++ '%' :: 's' :: post) = some (pre, post) := by
  induction pre with
  | nil => simp [splitFirst, List.isPrefixOf]
  | cons c t ih =>
    simp only [List.mem_cons, not_or] at h
    have hc : ('%' == c) = false := by simpa using h.1
    simp [splitFirst, List.isPrefixOf, hc, ih h.2]

theorem head_ne_percent_of_not_mem (t : Str) (h : '%' ∉ t) : t.head? ≠ some '%' := by
  cases t with
  | nil => simp
  | cons d r =>
    simp only [List.mem_cons, not_or] at h
    simpa using fun e : d = '%' => h.1 e.symm

theorem head_append_ne_percent (t rest : Str) (h : '%' ∉ t) :
    (t ++ ',' :: rest).head? ≠ some '%' := by
  cases t with
  | nil => simp
  | cons d r =>
    simp only [List.mem_cons, not_or] at h
    simpa using fun e : d = '%' => h.1 e.symm

theorem commaHole_mismatch (c : Char) (str : Str) (h : str.head? ≠ some '%') :
    List.isPrefixOf [',', '%', 's'] (c :: str) = false := by
  cases str with
  | nil => simp [List.isPrefixOf]
  | cons d r =>
    have hd : ('%' == d) = false := by
      rw [beq_eq_false_iff_ne]
      intro e
      exact h (by rw [← e]; rfl)
    simp [List.isPrefixOf, hd]

theorem splitFirst_cons_no_match (pat : Str) (c : Char) (t : Str)
    (h : pat.isPrefixOf (c :: t) = false) :
    splitFirst pat (c :: t) = (splitFirst pat t).map fun p => (c :: p.1, p.2) := by
  simp only [splitFirst, h, Bool.false_eq_true, if_false]

theorem splitFirst_commaHole (pre post : Str) (h : '%' ∉ pre) :
    splitFirst [',', '%', 's'] (pre ++ ',' :: '%' :: 's' :: post) = some (pre, post) := by
  induction pre with
  | nil => simp [splitFirst, List.isPrefixOf]
  | cons c t ih =>
    simp only [List.mem_cons, not_or] at h
    have hpre := commaHole_mismatch c (t ++ ',' :: '%' :: 's' :: post)
      (head_append_ne_percent t _ h.2)
    rw [List.cons_append, splitFirst_cons_no_match _ _ _ hpre, ih h.2]
    rfl

theorem getSubstitution_of_no_dollar (matched before after : Str) :
    ∀ value : Str, '$' ∉ value → getSubstitution matched before after value = value
  | [], _ => rfl
  | [_], _ => rfl
  | c :: d :: r, h => by
    simp only [List.mem_cons, not_or] at h
    have hc : ¬ c = '$' := fun e => h.1 e.symm
    have ih := getSubstitution_of_no_dollar matched before after (d :: r)
      (by simp only [List.mem_cons, not_or]; exact h.2)
    simp only [getSubstitution, hc, if_false, ih]

/-- Filling the first hole: when no `%` stands before the hole and the value
has no `$`, the value takes the place of the hole. -/
theorem replace_hole (pre post value : Str) (hpre : '%' ∉ pre) (hval : '$' ∉ value) :
    replace (pre ++ '%' :: 's' :: post) value none = pre ++ value ++ post := by
  have hne : pre ++ '%' :: 's' :: post ≠ [] := by simp
  simp only [replace, hne, if_false, jsReplace, Option.getD, holeExp]
  show replaceFirst ['%', 's'] value (pre ++ '%' :: 's' :: post) = _
  simp only [replaceFirst, splitFirst_hole pre post hpre,
    getSubstitution_of_no_dollar _ _ _ value hval]

/-- Removing the first `,%s` when no `%` stands before it. -/
theorem replace_commaHole (pre post : Str) (hpre : '%' ∉ pre) :
    replace (pre ++ ',' :: '%' :: 's' :: post) [] (some commaHoleExp) = pre ++ post := by
  have hne : pre ++ ',' :: '%' :: 's' :: post ≠ [] := by simp
  simp only [replace, hne, if_false, jsReplace, Option.getD, commaHoleExp]
  show replaceFirst [',', '%', 's'] [] (pre ++ ',' :: '%' :: 's' :: post) = _
  simp only [replaceFirst, splitFirst_commaHole pre post hpre, getSubstitution, List.append_nil]

/-- Removing every `,%s`: the text scanned so far plays no part when the
replacement is empty. -/
theorem replaceAllAux_seen (pat : Str) :
    ∀ (str : Str) (skip : Nat) (seen : Str),
      replaceAllAux pat [] skip seen str = replaceAllAux pat [] skip [] str
  | [], skip, seen => by cases skip <;> simp [replaceAllAux]
  | c :: t, skip + 1, seen => by
    simp only [replaceAllAux]
    rw [replaceAllAux_seen pat t skip (c :: seen), replaceAllAux_seen pat t skip [c]]
  | c :: t, 0, seen => by
    simp only [replaceAllAux, getSubstitution, List.nil_append]
    rw [replaceAllAux_seen pat t (pat.length - 1) (c :: seen),
      replaceAllAux_seen pat t (pat.length - 1) [c],
      replaceAllAux_seen pat t 0 (c :: seen), replaceAllAux_seen pat t 0 [c]]

theorem replaceAllAux_no_match (pat value seen : Str) (c : Char) (t : Str)
    (h : pat.isPrefixOf (c :: t) = false) :
    replaceAllAux pat value 0 seen (c :: t) = c :: replaceAllAux pat value 0 (c :: seen) t := by
  simp only [replaceAllAux, h, Bool.false_eq_true, false_and, if_false]

theorem replaceAllAux_match (seen post : Str) :
    replaceAllAux [',', '%', 's'] [] 0 seen (',' :: '%' :: 's' :: post)
      = replaceAllAux [',', '%', 's'] [] 0 ('s' :: '%' :: ',' :: seen) post := by
  simp [replaceAllAux, List.isPrefixOf, getSubstitution]

/-- Text without `%` has no `,%s` to remove. -/
theorem replaceAllAux_of_no_percent :
    ∀ (str seen : Str), '%' ∉ str → replaceAllAux [',', '%', 's'] [] 0 seen str = str
  | [], _, _ => rfl
  | c :: t, seen, h => by
    simp only [List.mem_cons, not_or] at h
    rw [replaceAllAux_no_match _ _ _ _ _
      (commaHole_mismatch c t (head_ne_percent_of_not_mem t h.2)),
      replaceAllAux_of_no_percent t (c :: seen) h.2]

/-- Removing every `,%s` from a text whose first `%` belongs to a `,%s`. -/
theorem replaceAllAux_commaHole (post : Str) :
    ∀ (pre seen : Str), '%' ∉ pre →
      replaceAllAux [',', '%', 's'] [] 0 seen (pre ++ ',' :: '%' :: 's' :: post)
        = pre ++ replaceAllAux [',', '%', 's'] [] 0 [] post
  | [], seen, _ => by
    rw [List.nil_append, replaceAllAux_match, replaceAllAux_seen]
    rfl
  | c :: t, seen, h => by
    simp only [List.mem_cons, not_or] at h
    rw [List.cons_append, replaceAllAux_no_match _ _ _ _ _
      (commaHole_mismatch c _ (head_append_ne_percent t _ h.2)),
      replaceAllAux_commaHole post t (c :: seen) h.2]
    rfl

/-! ## The text generated for a keyed descriptor of leaves -/

/-- Closed form of `resolveDefault`. -/
theorem resolveDefault_eq (type : String) :
    resolveDefault type
      = (if type = "string" then " || \"\"".toList
        else if type = "number" then " || 0".toList
        else if type = "boolean" then " || false".toList
        else if type = "null" then " || null".toList
        else []) := by
  unfold resolveDefault
  split_ifs <;> rfl

theorem resolveDefault_clean (type : String) :
    '%' ∉ resolveDefault type ∧ '$' ∉ resolveDefault type := by
  rw [resolveDefault_eq]
  split_ifs <;> decide

theorem createFuncStr_kind_some (type : String) (key str : Str) (h : str ≠ []) :
    createFuncStr (.kind type) key (some str) = replace str (key ++ resolveDefault type) none := by
  cases str with
  | nil => exact absurd rfl h
  | cons c t => simp only [createFuncStr]

/-- One turn of the loop over a keyed descriptor, for a leaf: the hole is
replaced by the entry, a comma and a new hole. -/
theorem createFuncStrFields_leaf_step (k type : String) (key pre post : Str)
    (hpre : '%' ∉ pre) (hk : '%' ∉ k.toList ∧ '$' ∉ k.toList)
    (hkey : '%' ∉ key ∧ '$' ∉ key) :
    createFuncStr (.kind type) (key ++ "[\"".toList ++ k.toList ++ "\"]".toList)
        (some (replace (pre ++ '%' :: 's' :: post) (k.toList ++ ": %s,%s".toList) none))
      = (pre ++ flatEntry key (k, type) ++ [',']) ++ '%' :: 's' :: post := by
  have hval1 : '$' ∉ k.toList ++ ": %s,%s".toList := by
    simp only [List.mem_append, not_or]
    exact ⟨hk.2, by decide⟩
  rw [replace_hole pre post _ hpre hval1]
  have hshape : pre ++ (k.toList ++ ": %s,%s".toList) ++ post
      = (pre ++ k.toList ++ [':', ' ']) ++ '%' :: 's' :: (',' :: '%' :: 's' :: post) := by
    show pre ++ (k.toList ++ [':', ' ', '%', 's', ',', '%', 's']) ++ post = _
    simp
  rw [hshape, createFuncStr_kind_some _ _ _ (by simp)]
  have hpre2 : '%' ∉ pre ++ k.toList ++ [':', ' '] := by
    simp only [List.mem_append, not_or]
    exact ⟨⟨hpre, hk.1⟩, by decide⟩
  have hval2 : '$' ∉ key ++ "[\"".toList ++ k.toList ++ "\"]".toList ++ resolveDefault type := by
    simp only [List.mem_append, not_or]
    refine ⟨⟨⟨⟨hkey.2, ?_⟩, hk.2⟩, ?_⟩, (resolveDefault_clean type).2⟩ <;> decide
  rw [replace_hole _ _ _ hpre2 hval2]
  show _ = pre ++ (k.toList ++ ':' :: ' ' :: (key ++ ('[' :: '"' :: k.toList ++ ['"', ']'])
    ++ resolveDefault type)) ++ [','] ++ '%' :: 's' :: post
  show pre ++ k.toList ++ [':', ' '] ++ (key ++ ['[', '"'] ++ k.toList ++ ['"', ']']
    ++ resolveDefault type) ++ ',' :: '%' :: 's' :: post = _
  simp

theorem flatEntry_no_percent (key : Str) (p : String × String)
    (hk : '%' ∉ p.1.toList) (hkey : '%' ∉ key) : '%' ∉ flatEntry key p := by
  have hr := (resolveDefault_clean p.2).1
  have hk1 : '%' ∉ p.1.data := hk
  simp [flatEntry, leafText, accessor, hk1, hkey, hr]

/-- The loop over a keyed descriptor of leaves writes one entry and one comma
per field in front of the hole. -/
theorem createFuncStrFields_flat (key : Str) (hkey : '%' ∉ key ∧ '$' ∉ key) (post : Str) :
    ∀ (fields : List (String × String)) (pre : Str), '%' ∉ pre →
      (∀ p ∈ fields, '%' ∉ p.1.toList ∧ '$' ∉ p.1.toList) →
      createFuncStrFields (fields.map fun p => (p.1, Desc.kind p.2)) key
          (pre ++ '%' :: 's' :: post)
        = pre ++ flatEntries key fields ++ '%' :: 's' :: post
  | [], pre, _, _ => by simp [createFuncStrFields, flatEntries]
  | (k, type) :: rest, pre, hpre, hk => by
    have hk1 := hk (k, type) (List.mem_cons_self _ _)
    simp only [List.map_cons, createFuncStrFields]
    rw [createFuncStrFields_leaf_step k type key pre post hpre hk1 hkey,
      createFuncStrFields_flat key hkey post rest _ _
        (fun p hp => hk p (List.mem_cons_of_mem _ hp))]
    · simp [flatEntries]
    · simp only [List.mem_append, not_or]
      exact ⟨⟨hpre, flatEntry_no_percent key (k, type) hk1.1 hkey.1⟩, by decide⟩

theorem flatEntry_no_dollar (key : Str) (p : String × String)
    (hk : '$' ∉ p.1.toList) (hkey : '$' ∉ key) : '$' ∉ flatEntry key p := by
  have hr := (resolveDefault_clean p.2).2
  have hk1 : '$' ∉ p.1.data := hk
  simp [flatEntry, leafText, accessor, hk1, hkey, hr]

theorem flatEntries_eq_joinComma (key : Str) :
    ∀ fields : List (String × String), fields ≠ [] →
      flatEntries key fields = joinComma (fields.map (flatEntry key)) ++ [',']
  | [], h => absurd rfl h
  | [p], _ => by simp [flatEntries, joinComma]
  | p :: q :: rest, _ => by
    have ih := flatEntries_eq_joinComma key (q :: rest) (by simp)
    simp only [List.map_cons] at ih
    simp only [flatEntries, List.map_cons, joinComma] at ih ⊢
    rw [ih]
    simp

theorem joinComma_not_mem (c : Char) (hc : c ≠ ',') :
    ∀ texts : List Str, (∀ t ∈ texts, c ∉ t) → c ∉ joinComma texts
  | [], _ => by simp [joinComma]
  | [e], h => by simpa [joinComma] using h e (List.mem_cons_self _ _)
  | e :: f :: rest, h => by
    have ih := joinComma_not_mem c hc (f :: rest) (fun t ht => h t (List.mem_cons_of_mem _ ht))
    have he := h e (List.mem_cons_self _ _)
    simp only [joinComma, List.mem_append, List.mem_cons, not_or]
    exact ⟨he, hc, ih⟩

/-- The body built for a keyed descriptor of leaves with at least one field,
whose keys have neither `%` nor `$`: an object literal with one `key: path`
entry per field, in order. -/
theorem createFuncBody_flat (fields : List (String × String)) (hne : fields ≠ [])
    (hk : ∀ p ∈ fields, '%' ∉ p.1.toList ∧ '$' ∉ p.1.toList) :
    createFuncBody (flatDesc fields)
      = "\x7b var newObj = ".toList
        ++ (lbrace :: joinComma (fields.map (flatEntry "obj".toList)) ++ [rbrace])
        ++ "; return newObj; \x7d".toList := by
  have hobj : '%' ∉ "obj".toList ∧ '$' ∉ "obj".toList := by decide
  have hjp : '%' ∉ joinComma (fields.map (flatEntry "obj".toList)) := by
    apply joinComma_not_mem _ (by decide)
    intro t ht
    obtain ⟨p, hp, rfl⟩ := List.mem_map.1 ht
    exact flatEntry_no_percent _ p (hk p hp).1 hobj.1
  have hjd : '$' ∉ joinComma (fields.map (flatEntry "obj".toList)) := by
    apply joinComma_not_mem _ (by decide)
    intro t ht
    obtain ⟨p, hp, rfl⟩ := List.mem_map.1 ht
    exact flatEntry_no_dollar _ p (hk p hp).2 hobj.2
  have hloop := createFuncStrFields_flat "obj".toList hobj [rbrace, ',', '%', 's'] fields
    [lbrace] (by decide) hk
  have hstr : createFuncStr (flatDesc fields) "obj".toList none
      = (lbrace :: joinComma (fields.map (flatEntry "obj".toList)) ++ [rbrace])
        ++ [',', '%', 's'] := by
    simp only [flatDesc, createFuncStr, Option.map, orStr]
    have hchild : "\x7b%s\x7d,%s".toList = [lbrace] ++ '%' :: 's' :: [rbrace, ',', '%', 's'] := by
      decide
    rw [hchild, hloop, flatEntries_eq_joinComma _ fields hne]
    have hshape : [lbrace] ++ (joinComma (fields.map (flatEntry "obj".toList)) ++ [','])
        ++ '%' :: 's' :: [rbrace, ',', '%', 's']
        = (lbrace :: joinComma (fields.map (flatEntry "obj".toList)))
          ++ ',' :: '%' :: 's' :: [rbrace, ',', '%', 's'] := by simp
    rw [hshape, replace_commaHole _ _ (by
      simp only [List.mem_cons, not_or]
      exact ⟨by decide, hjp⟩)]
    simp
  have hpre : '%' ∉ lbrace :: joinComma (fields.map (flatEntry "obj".toList)) ++ [rbrace] := by
    simp only [List.cons_append, List.mem_cons, List.mem_append, not_or]
    exact ⟨by decide, hjp, by decide, List.not_mem_nil _⟩
  have hdol : '$' ∉ lbrace :: joinComma (fields.map (flatEntry "obj".toList)) ++ [rbrace] := by
    simp only [List.cons_append, List.mem_cons, List.mem_append, not_or]
    exact ⟨by decide, hjd, by decide, List.not_mem_nil _⟩
  have hall : replace ((lbrace :: joinComma (fields.map (flatEntry "obj".toList)) ++ [rbrace])
        ++ [',', '%', 's']) [] (some commaHoleAllExp)
      = lbrace :: joinComma (fields.map (flatEntry "obj".toList)) ++ [rbrace] := by
    have hne2 : (lbrace :: joinComma (fields.map (flatEntry "obj".toList)) ++ [rbrace])
        ++ [',', '%', 's'] ≠ [] := by simp
    simp only [replace, hne2, if_false, jsReplace, Option.getD, commaHoleAllExp, if_true]
    show replaceAllAux [',', '%', 's'] [] 0 [] _ = _
    rw [replaceAllAux_commaHole [] _ [] hpre]
    simp [replaceAllAux]
  unfold createFuncBody
  simp only [hstr, hall]
  have hbase : "\x7b var newObj = %s; return newObj; \x7d".toList
      = "\x7b var newObj = ".toList ++ '%' :: 's' :: "; return newObj; \x7d".toList := by
    decide
  rw [hbase, replace_hole _ _ _ (by decide) hdol]

/-! ## Parsing the body of a keyed descriptor of leaves -/

theorem spanChars_append (p : Char → Bool) (c : Char) (rest : Str) (hc : p c = false) :
    ∀ name : Str, (∀ d ∈ name, p d = true) → spanChars p (name ++ c :: rest) = (name, c :: rest)
  | [], _ => by simp [spanChars, hc]
  | d :: t, h => by
    have hd := h d (List.mem_cons_self _ _)
    have ih := spanChars_append p c rest hc t (fun e he => h e (List.mem_cons_of_mem _ he))
    simp [spanChars, hd, ih]

theorem isPlainChar_facts (c : Char) (h : isPlainChar c = true) :
    isIdentChar c = true ∧ c ≠ '%' ∧ c ≠ '$' ∧ c ≠ '"' ∧ c ≠ Char.ofNat 92
      ∧ c ≠ Char.ofNat 10 ∧ c ≠ Char.ofNat 13 := by
  refine ⟨?_, ?_, ?_, ?_, ?_, ?_, ?_⟩
  · simp only [isPlainChar, Bool.or_eq_true, decide_eq_true_eq] at h
    simp only [isIdentChar, Bool.or_eq_true, decide_eq_true_eq]
    exact Or.inl h
  all_goals
    intro e
    subst e
    exact absurd h (by decide)

theorem isPlainIdent_chars (name : String) (h : isPlainIdent name = true) :
    ∃ c t, name.toList = c :: t ∧ isPlainChar c = true ∧ c.isDigit = false
      ∧ ∀ d ∈ c :: t, isPlainChar d = true := by
  obtain ⟨data⟩ := name
  cases data with
  | nil => exact absurd h (by decide)
  | cons c t =>
    have h1 : (isPlainChar c && !c.isDigit && t.all isPlainChar) = true := h
    simp only [Bool.and_eq_true, Bool.not_eq_true', List.all_eq_true] at h1
    refine ⟨c, t, rfl, h1.1.1, h1.1.2, ?_⟩
    intro d hd
    rcases List.mem_cons.1 hd with rfl | hd
    · exact h1.1.1
    · exact h1.2 d hd

theorem isPlainIdent_clean (name : String) (h : isPlainIdent name = true) :
    '%' ∉ name.toList ∧ '$' ∉ name.toList := by
  obtain ⟨c, t, hn, _, _, hall⟩ := isPlainIdent_chars name h
  rw [hn]
  constructor
  · intro hm
    exact (isPlainChar_facts _ (hall _ hm)).2.1 rfl
  · intro hm
    exact (isPlainChar_facts _ (hall _ hm)).2.2.1 rfl

theorem parseKey_plain (name : String) (rest : Str) (h : isPlainIdent name = true) :
    parseKey (name.toList ++ ':' :: ' ' :: rest) = .ok (name, rest) := by
  obtain ⟨c, t, hn, hc, hdig, hall⟩ := isPlainIdent_chars name h
  obtain ⟨data⟩ := name
  have hdata : data = c :: t := hn
  subst hdata
  have hspan := spanChars_append isIdentChar ':' (' ' :: rest) (by decide) (c :: t)
    (fun d hd => (isPlainChar_facts d (hall d hd)).1)
  have hcp : ¬ c = '%' := (isPlainChar_facts c hc).2.1
  have hci : isIdentChar c = true := (isPlainChar_facts c hc).1
  show parseKey (c :: t ++ ':' :: ' ' :: rest) = _
  simp only [List.cons_append, parseKey, hcp, if_false, hci, hdig, Bool.false_eq_true,
    not_false_eq_true, and_self, if_true]
  rw [← List.cons_append, hspan]
  rfl

theorem parseAccessors_stop (fuel : Nat) (c : Char) (rest : Str) (h : c ≠ '[') :
    parseAccessors (fuel + 1) (c :: rest) = .ok ([], c :: rest) := by
  unfold parseAccessors
  split
  · rename_i heq
    injection heq with h1 _
    exact absurd h1 h
  · rfl

theorem parseAccessors_one (fuel : Nat) (name : String) (c : Char) (rest : Str)
    (hname : ∀ d ∈ name.toList, isPlainChar d = true) (hc : c ≠ '[') :
    parseAccessors (fuel + 2) (accessor name.toList ++ c :: rest) = .ok ([name], c :: rest) := by
  have hspan := spanChars_append
    (fun c => decide (c ≠ '"' ∧ c ≠ Char.ofNat 92 ∧ c ≠ Char.ofNat 10 ∧ c ≠ Char.ofNat 13))
    '"' (']' :: c :: rest) (by decide) name.toList (by
      intro d hd
      have hf := isPlainChar_facts d (hname d hd)
      simp only [decide_eq_true_eq]
      exact ⟨hf.2.2.2.1, hf.2.2.2.2.1, hf.2.2.2.2.2.1, hf.2.2.2.2.2.2⟩)
  have hshape : accessor name.toList ++ c :: rest
      = '[' :: '"' :: (name.toList ++ '"' :: ']' :: c :: rest) := by
    simp [accessor]
  rw [hshape, parseAccessors]
  simp only [hspan, parseAccessors_stop fuel c rest hc]
  rfl

theorem parseDefault_resolveDefault (type : String) (c : Char) (rest : Str)
    (hc : c = ',' ∨ c = rbrace) :
    parseDefault (resolveDefault type ++ c :: rest) = (litOf type, c :: rest) := by
  rw [resolveDefault_eq]
  unfold litOf
  rcases hc with rfl | rfl <;> split_ifs <;> rfl

/-- A leaf read under one key parses back to the one-step path with the
default literal of its kind. -/
theorem parseExpr_leaf (fuel : Nat) (p : String × String) (c : Char) (rest : Str)
    (hname : ∀ d ∈ p.1.toList, isPlainChar d = true) (hc : c = ',' ∨ c = rbrace) :
    parseExpr (fuel + 3)
        (leafText ("obj".toList ++ accessor p.1.toList) p.2 ++ c :: rest)
      = .ok (.path [p.1] (litOf p.2), c :: rest) := by
  have hshape : leafText ("obj".toList ++ accessor p.1.toList) p.2 ++ c :: rest
      = 'o' :: 'b' :: 'j' :: (accessor p.1.toList ++ (resolveDefault p.2 ++ c :: rest)) := by
    show ("obj".toList ++ accessor p.1.toList ++ resolveDefault p.2) ++ c :: rest = _
    show (['o', 'b', 'j'] ++ accessor p.1.toList ++ resolveDefault p.2) ++ c :: rest = _
    simp
  have hnext : ∃ d r, resolveDefault p.2 ++ c :: rest = d :: r ∧ d ≠ '[' := by
    rw [resolveDefault_eq]
    rcases hc with rfl | rfl <;> split_ifs <;> exact ⟨_, _, rfl, by decide⟩
  obtain ⟨d, r, hdr, hd⟩ := hnext
  rw [hshape, parseExpr]
  rw [hdr, parseAccessors_one fuel p.1 d r hname hd, ← hdr]
  simp only [parseDefault_resolveDefault p.2 c rest hc]

theorem flatEntry_parse (fuel : Nat) (p : String × String) (c : Char) (rest : Str)
    (hp : isPlainIdent p.1 = true) (hc : c = ',' ∨ c = rbrace) :
    parseKey (flatEntry "obj".toList p ++ c :: rest)
        = .ok (p.1, leafText ("obj".toList ++ accessor p.1.toList) p.2 ++ c :: rest)
      ∧ parseExpr (fuel + 3) (leafText ("obj".toList ++ accessor p.1.toList) p.2 ++ c :: rest)
        = .ok (.path [p.1] (litOf p.2), c :: rest) := by
  obtain ⟨d, t, hn, _, _, hall⟩ := isPlainIdent_chars p.1 hp
  constructor
  · have hshape : flatEntry "obj".toList p ++ c :: rest
        = p.1.toList ++ ':' :: ' ' ::
          (leafText ("obj".toList ++ accessor p.1.toList) p.2 ++ c :: rest) := by
      simp [flatEntry]
    rw [hshape, parseKey_plain p.1 _ hp]
  · exact parseExpr_leaf fuel p c rest (by rw [hn]; exact hall) hc

/-- The entries of leaf fields under plain identifiers, closed by a brace, parse
back to one property per field. -/
theorem parseFields_flat (tail : Str) :
    ∀ (fields : List (String × String)) (fuel : Nat), fields ≠ [] →
      (∀ p ∈ fields, isPlainIdent p.1 = true) → fields.length + 3 ≤ fuel →
      parseFields fuel (joinComma (fields.map (flatEntry "obj".toList)) ++ rbrace :: tail)
        = .ok (fields.map flatExpr, tail)
  | [], _, h, _, _ => absurd rfl h
  | [p], fuel, _, hp, hfuel => by
    obtain ⟨m, rfl⟩ : ∃ m, fuel = m + 3 + 1 := ⟨fuel - 4, by simp at hfuel; omega⟩
    obtain ⟨h1, h2⟩ := flatEntry_parse m p rbrace tail (hp p (List.mem_cons_self _ _))
      (Or.inr rfl)
    simp only [List.map_cons, List.map_nil, joinComma]
    rw [parseFields]
    simp only [h1, h2]
    rfl
  | p :: q :: rest, fuel, _, hp, hfuel => by
    obtain ⟨m, rfl⟩ : ∃ m, fuel = m + 3 + 1 := ⟨fuel - 4, by simp at hfuel; omega⟩
    have ih := parseFields_flat tail (q :: rest) (m + 3) (by simp)
      (fun r hr => hp r (List.mem_cons_of_mem _ hr)) (by simp at hfuel ⊢; omega)
    obtain ⟨h1, h2⟩ := flatEntry_parse m p ','
      (joinComma ((q :: rest).map (flatEntry "obj".toList)) ++ rbrace :: tail)
      (hp p (List.mem_cons_self _ _)) (Or.inl rfl)
    have hshape : joinComma ((p :: q :: rest).map (flatEntry "obj".toList)) ++ rbrace :: tail
        = flatEntry "obj".toList p ++ ',' ::
          (joinComma ((q :: rest).map (flatEntry "obj".toList)) ++ rbrace :: tail) := by
      simp [joinComma]
    rw [hshape, parseFields]
    simp only [h1, h2, ih, if_true]
    rfl

theorem parseExpr_lbrace (fuel : Nat) (d : Char) (rest : Str) (hd : d ≠ rbrace) :
    parseExpr (fuel + 1) (lbrace :: d :: rest)
      = match parseFields fuel (d :: rest) with
        | .ok (fields, rest2) => .ok (.objectLit fields, rest2)
        | .error e => .error e := by
  have h : parseExpr (fuel + 1) (lbrace :: d :: rest)
      = if d = rbrace then .ok (.objectLit [], rest)
        else match parseFields fuel (d :: rest) with
          | .ok (fields, rest2) => .ok (.objectLit fields, rest2)
          | .error e => .error e := rfl
  rw [h, if_neg hd]

theorem length_le_length_joinComma :
    ∀ texts : List Str, (∀ t ∈ texts, t ≠ []) → texts.length ≤ (joinComma texts).length
  | [], _ => by simp
  | [e], h => by
    have he := h e (List.mem_cons_self _ _)
    cases e with
    | nil => exact absurd rfl he
    | cons c t => simp [joinComma]
  | e :: f :: rest, h => by
    have ih := length_le_length_joinComma (f :: rest) (fun t ht => h t (List.mem_cons_of_mem _ ht))
    simp only [joinComma, List.length_cons, List.length_append] at ih ⊢
    omega

theorem joinComma_flat_head (tail : Str) (fields : List (String × String)) (hne : fields ≠ [])
    (hp : ∀ p ∈ fields, isPlainIdent p.1 = true) :
    ∃ d r, joinComma (fields.map (flatEntry "obj".toList)) ++ rbrace :: tail = d :: r
      ∧ d ≠ rbrace := by
  cases fields with
  | nil => exact absurd rfl hne
  | cons p rest =>
    obtain ⟨c, t, hn, hc, _, _⟩ := isPlainIdent_chars p.1 (hp p (List.mem_cons_self _ _))
    have hn1 : p.1.data = c :: t := hn
    have hc2 : c ≠ rbrace := by
      intro e
      subst e
      exact absurd hc (by decide)
    have hhead : (joinComma ((p :: rest).map (flatEntry "obj".toList))
        ++ rbrace :: tail).head? = some c := by
      cases rest with
      | nil => simp [joinComma, flatEntry, hn1]
      | cons q rest2 => simp [joinComma, flatEntry, hn1]
    cases hX : joinComma ((p :: rest).map (flatEntry "obj".toList)) ++ rbrace :: tail with
    | nil => rw [hX] at hhead; exact absurd hhead (by simp)
    | cons d r =>
      rw [hX] at hhead
      simp only [List.head?_cons, Option.some.injEq] at hhead
      exact ⟨d, r, rfl, by rw [hhead]; exact hc2⟩

theorem parseExpr_flat (tail : Str) (fields : List (String × String)) (hne : fields ≠ [])
    (hp : ∀ p ∈ fields, isPlainIdent p.1 = true) (fuel : Nat) (hfuel : fields.length + 4 ≤ fuel) :
    parseExpr fuel (lbrace :: (joinComma (fields.map (flatEntry "obj".toList)) ++ rbrace :: tail))
      = .ok (.objectLit (fields.map flatExpr), tail) := by
  obtain ⟨m, rfl⟩ : ∃ m, fuel = m + 1 := ⟨fuel - 1, by omega⟩
  obtain ⟨d, r, hdr, hd⟩ := joinComma_flat_head tail fields hne hp
  rw [hdr, parseExpr_lbrace _ d r hd, ← hdr, parseFields_flat tail fields m hne hp (by omega)]

/-- The body built for a keyed descriptor of leaves under plain identifiers
parses, and the function returns the object literal with one property per
field. -/
theorem parseBody_flat (fields : List (String × String)) (hne : fields ≠ [])
    (hp : ∀ p ∈ fields, isPlainIdent p.1 = true) :
    parseBody (createFuncBody (flatDesc fields)) = .ok (.objectLit (fields.map flatExpr)) := by
  rw [createFuncBody_flat fields hne (fun p h => isPlainIdent_clean p.1 (hp p h))]
  have hlen : fields.length ≤ (joinComma (fields.map (flatEntry "obj".toList))).length := by
    have := length_le_length_joinComma (fields.map (flatEntry "obj".toList)) (by
      intro t ht
      obtain ⟨p, _, rfl⟩ := List.mem_map.1 ht
      simp [flatEntry])
    simpa using this
  have hbody : "\x7b var newObj = ".toList
        ++ (lbrace :: joinComma (fields.map (flatEntry "obj".toList)) ++ [rbrace])
        ++ "; return newObj; \x7d".toList
      = "\x7b var newObj = ".toList
        ++ (lbrace :: (joinComma (fields.map (flatEntry "obj".toList))
          ++ rbrace :: "; return newObj; \x7d".toList)) := by
    simp
  rw [hbody]
  simp only [parseBody]
  rw [if_pos (List.isPrefixOf_iff_prefix.2 (List.prefix_append _ _)), List.drop_left,
    parseExpr_flat _ fields hne hp _ (by
      simp only [List.length_append, List.length_cons]
      omega)]
  simp

/-! ## Running the function compiled from a keyed sample of leaves -/

theorem evalExpr_flat (input : List (String × Value)) (p : String × String)
    (hinh : p.1 ∉ objectPrototypeKeys) :
    evalExpr (.obj input) (flatExpr p).2
      = .ok (substituted p.2 ((lookupOwn input p.1).getD .undefined)) := by
  simp only [flatExpr, evalExpr, getPath, getProp, substituted]
  cases hl : lookupOwn input p.1 with
  | none =>
    simp only [hinh, if_false, Option.getD]
    cases litOf p.2 <;> simp [truthy]
  | some v =>
    simp only [Option.getD]
    cases litOf p.2 <;> simp
    split_ifs <;> rfl

/-- The object literal of a keyed sample of leaves evaluates to one property
per field, in order, each holding the substituted value. -/
theorem evalFields_flat (input : List (String × Value)) :
    ∀ (fields : List (String × String)) (result : List (String × Value)),
      (∀ p ∈ fields, p.1 ∉ objectPrototypeKeys) → (keysOf fields).Nodup →
      (∀ k ∈ keysOf fields, k ∉ keysOf result) →
      evalFields (.obj input) (fields.map flatExpr) result
        = .ok (result ++ fields.map fun p =>
            (p.1, substituted p.2 ((lookupOwn input p.1).getD .undefined)))
  | [], result, _, _, _ => by simp [evalFields]
  | p :: rest, result, hinh, hnd, hfresh => by
    have hp := hinh p (List.mem_cons_self _ _)
    have hproto : p.1 ≠ "__proto__" := by
      intro e
      apply hp
      rw [e]
      decide
    simp only [keysOf, List.map_cons, List.nodup_cons, List.mem_cons] at hnd hfresh
    have hnew : p.1 ∉ keysOf result := hfresh p.1 (Or.inl rfl)
    have hstep : evalFields (.obj input) ((p :: rest).map flatExpr) result
        = evalFields (.obj input) (rest.map flatExpr)
            (setOwn result p.1 (substituted p.2 ((lookupOwn input p.1).getD .undefined))) := by
      have he := evalExpr_flat input p hp
      simp only [flatExpr] at he
      simp only [List.map_cons, flatExpr, evalFields, hproto, if_false, he]
    rw [hstep, setOwn_fresh result p.1 _ hproto hnew,
      evalFields_flat input rest _ (fun q hq => hinh q (List.mem_cons_of_mem _ hq)) hnd.2]
    · simp
    · intro k hk
      rw [keysOf_append]
      simp only [keysOf, List.map_cons, List.map_nil, List.mem_append, List.mem_singleton, not_or]
      refine ⟨hfresh k (Or.inr hk), ?_⟩
      rintro rfl
      exact hnd.1 hk

theorem shapeOfFields_scalars :
    ∀ fields : List (String × Value), (∀ p ∈ fields, isScalar p.2 = true) →
      shapeOfFields fields = (fields.map fun p => (p.1, kindOf p.2)).map
        fun p => (p.1, Desc.kind p.2)
  | [], _ => rfl
  | (k, v) :: rest, h => by
    have hv : isScalar v = true := h (k, v) (List.mem_cons_self _ _)
    have ih := shapeOfFields_scalars rest (fun q hq => h q (List.mem_cons_of_mem _ hq))
    simp only [shapeOfFields, List.map_cons, ih]
    cases v <;> first | rfl | exact absurd hv (by simp [isScalar])

theorem ordinaryKeysFields_scalars :
    ∀ fields : List (String × Value), (∀ p ∈ fields, isScalar p.2 = true) →
      ordinaryKeysFields fields = true
  | [], _ => rfl
  | (k, v) :: rest, h => by
    have hv : isScalar v = true := h (k, v) (List.mem_cons_self _ _)
    have ih := ordinaryKeysFields_scalars rest (fun q hq => h q (List.mem_cons_of_mem _ hq))
    simp only [ordinaryKeysFields, ih, Bool.and_true]
    cases v <;> first | rfl | exact absurd hv (by simp [isScalar])

/-- The descriptor of a keyed sample of leaves. -/
theorem analyze_flat (fields : List (String × Value))
    (hscalar : ∀ p ∈ fields, isScalar p.2 = true) (hnd : (keysOf fields).Nodup)
    (hproto : "__proto__" ∉ keysOf fields) :
    analyze (.obj fields) = flatDesc (fields.map fun p => (p.1, kindOf p.2)) := by
  have hk : ordinaryKeys (.obj fields) = true := by
    simp only [ordinaryKeys, Bool.and_eq_true, decide_eq_true_eq]
    exact ⟨⟨hnd, hproto⟩, ordinaryKeysFields_scalars fields hscalar⟩
  rw [analyze_eq_shapeOf _ hk]
  simp only [shapeOf, flatDesc, shapeOfFields_scalars fields hscalar]

/-- Default substitution and field selection on every keyed sample of leaves
that has at least one field, under plain identifiers none of which names a
property inherited from `Object.prototype`: the sample compiles, and on every
plain-object input the function returns the fields of the sample, in the order
of the sample, each holding the input's value when that is truthy or the kind
has no default, and the default of the kind otherwise. -/
theorem flat_sample_clone (fields input : List (String × Value)) (hne : fields ≠ [])
    (hscalar : ∀ p ∈ fields, isScalar p.2 = true)
    (hplain : ∀ p ∈ fields, isPlainIdent p.1 = true)
    (hinh : ∀ p ∈ fields, p.1 ∉ objectPrototypeKeys) (hnd : (keysOf fields).Nodup) :
    ∃ func, createFunc (analyze (.obj fields)) = .ok func
      ∧ func.call (some (.obj input))
        = .ok (.obj (fields.map fun p =>
            (p.1, substituted (kindOf p.2) ((lookupOwn input p.1).getD .undefined)))) := by
  have hproto : "__proto__" ∉ keysOf fields := by
    intro hm
    obtain ⟨p, hp, hpk⟩ := List.mem_map.1 hm
    apply hinh p hp
    rw [hpk]
    decide
  have hparse := parseBody_flat (fields.map fun p => (p.1, kindOf p.2)) (by simpa using hne) (by
    intro q hq
    obtain ⟨p, hp, rfl⟩ := List.mem_map.1 hq
    exact hplain p hp)
  have heval := evalFields_flat input (fields.map fun p => (p.1, kindOf p.2)) [] (by
      intro q hq
      obtain ⟨p, hp, rfl⟩ := List.mem_map.1 hq
      exact hinh p hp) (by simpa [keysOf] using hnd) (by simp [keysOf])
  refine ⟨⟨createFuncBody (analyze (.obj fields)),
    .objectLit ((fields.map fun p => (p.1, kindOf p.2)).map flatExpr)⟩, ?_, ?_⟩
  · simp only [createFunc, analyze_flat fields hscalar hnd hproto, hparse]
  · simp only [Proc.call, Option.getD, evalExpr, heval]
    simp

/-! ## `define` on an ordinary fresh key -/

theorem not_mem_keysOf_of_lookupOwn_none {α : Type} (fields : List (String × α)) (key : String)
    (h : lookupOwn fields key = none) : key ∉ keysOf fields := by
  induction fields with
  | nil => simp [keysOf]
  | cons p rest ih =>
    obtain ⟨k, x⟩ := p
    rw [lookupOwn_cons] at h
    by_cases hk : k = key
    · rw [if_pos hk] at h
      exact absurd h (by simp)
    · rw [if_neg hk] at h
      simp only [keysOf, List.map_cons, List.mem_cons, not_or]
      exact ⟨fun e => hk e.symm, ih h⟩

/-- A sample that is a leaf always compiles. -/
theorem createFunc_scalar (sample : Value) (h : isScalar sample = true) :
    ∃ func, createFunc (analyze sample) = .ok func := by
  cases sample with
  | arr items => exact absurd h (by simp [isScalar])
  | obj fields => exact absurd h (by simp [isScalar])
  | undefined => exact ⟨_, rfl⟩
  | null => exact ⟨_, rfl⟩
  | bool b => exact ⟨_, rfl⟩
  | num n => exact ⟨_, rfl⟩
  | str x => exact ⟨_, rfl⟩
  | func id => exact ⟨_, rfl⟩

/-- On a key the table does not hold and `Object.prototype` does not provide,
`define` with a leaf sample returns the compiled function and adds it under the
key, after the entries already there. -/
theorem define_fresh_ordinary_key (self : DeepCopy) (key : String) (sample : Value)
    (hs : isScalar sample = true) (hown : lookupOwn self._defined key = none)
    (hinh : key ∉ objectPrototypeKeys) :
    ∃ func, createFunc (analyze sample) = .ok func
      ∧ self.define key sample = (.ok func, ⟨self._defined ++ [(key, func)]⟩) := by
  obtain ⟨func, hf⟩ := createFunc_scalar sample hs
  refine ⟨func, hf, ?_⟩
  have hd : self.isDefined key = false := by
    simp [DeepCopy.isDefined, hown, hinh]
  have hproto : key ≠ "__proto__" := by
    intro e
    apply hinh
    rw [e]
    decide
  simp only [DeepCopy.define, hd, Bool.false_eq_true, if_false, hf,
    setOwn_fresh self._defined key func hproto (not_mem_keysOf_of_lookupOwn_none _ _ hown)]

/-! ## The loops of `analyze` are `map` with `analyze` as the callback -/

theorem analyzeItems_eq_mapArray (items : List Value) (index : Nat) :
    analyzeItems items = mapArray (fun x _ => analyze x) items index := by
  induction items generalizing index with
  | nil => rfl
  | cons x rest ih => simp only [analyzeItems, mapArray, ih (index + 1)]

theorem analyzeFields_eq_mapObject (fields : List (String × Value))
    (result : List (String × Desc)) :
    analyzeFields fields result = mapObject (fun x _ => analyze x) fields result := by
  induction fields generalizing result with
  | nil => rfl
  | cons p rest ih =>
    obtain ⟨key, x⟩ := p
    simp only [analyzeFields, mapObject, ih]

/-! ## `analyze` on the heap and on trees -/

theorem analyzeItems_eq_map (items : List Value) : analyzeItems items = items.map analyze := by
  induction items with
  | nil => rfl
  | cons x rest ih => simp only [analyzeItems, List.map_cons, ih]

theorem mapArrayOpt_analyze {α : Type} (f : α → Option Value) :
    ∀ items : List α,
      mapArrayOpt (fun x => (f x).map analyze) items
        = (mapArrayOpt f items).map analyzeItems
  | [] => rfl
  | x :: rest => by
    have ih := mapArrayOpt_analyze f rest
    simp only [mapArrayOpt, ih]
    cases f x with
    | none => rfl
    | some v => cases mapArrayOpt f rest <;> rfl

theorem mapObjectOpt_analyze {α : Type} (f : α → Option Value) :
    ∀ (fields : List (String × α)) (result : List (String × Desc)),
      mapObjectOpt (fun x => (f x).map analyze) fields result
        = (mapArrayOpt (fun p => (f p.2).map fun v => (p.1, v)) fields).map
            fun vs => analyzeFields vs result
  | [], result => rfl
  | (key, x) :: rest, result => by
    simp only [mapObjectOpt, mapArrayOpt]
    cases f x with
    | none => rfl
    | some v =>
      simp only [Option.map_some']
      rw [mapObjectOpt_analyze f rest]
      cases mapArrayOpt (fun p => (f p.2).map fun v => (p.1, v)) rest <;> rfl

/-- On the heap, `analyze` returns within a nesting depth exactly when the
value unfolds to a tree within that depth, and then returns the descriptor of
that tree. -/
theorem analyzeHeap_eq_analyze_readHeap (heap : Heap) :
    ∀ (depth : Nat) (v : HValue),
      analyzeHeap heap depth v = (readHeap heap depth v).map analyze
  | 0, _ => rfl
  | depth + 1, v => by
    have ih : analyzeHeap heap depth = fun x => (readHeap heap depth x).map analyze :=
      funext (analyzeHeap_eq_analyze_readHeap heap depth)
    cases v with
    | ref address =>
      simp only [analyzeHeap, readHeap]
      cases heap.get? address with
      | none => rfl
      | some o =>
        cases o with
        | arr items =>
          simp only [ih, mapArrayOpt_analyze]
          cases mapArrayOpt (readHeap heap depth) items <;> rfl
        | obj fields =>
          simp only [ih, mapObjectOpt_analyze]
          cases mapArrayOpt (fun p => (readHeap heap depth p.2).map fun v => (p.1, v)) fields
            <;> rfl
    | undefined => rfl
    | null => rfl
    | bool b => rfl
    | num n => rfl
    | str x => rfl
    | func id => rfl

/-- On the sample `{a: 1, b: {a: 2, b: null}}`, which has no cycle, `analyze`
returns within three nested calls. -/
theorem analyzeHeap_returns_on_tree :
    analyzeHeap [.obj [("a", .num 1), ("b", .ref 1)], .obj [("a", .num 2), ("b", .null)]] 3
        (.ref 0)
      = some (.keyed [("a", .kind "number"),
          ("b", .keyed [("a", .kind "number"), ("b", .kind "null")])]) := by
  rfl

/-! ## Evaluations on the samples of the tests -/

/-- The sample of the test on default values: the schema `{a: 1, b: 2, c: 3}`
called on `{a: 5, c: 5}` returns `{a: 5, b: 0, c: 5}`. -/
theorem defaultValue_test_passes :
    defineAndCall "test" (.obj [("a", .num 1), ("b", .num 2), ("c", .num 3)])
        (some (.obj [("a", .num 5), ("c", .num 5)]))
      = .ok (.obj [("a", .num 5), ("b", .num 0), ("c", .num 5)]) := by
  rfl

set_option maxRecDepth 100000 in
/-- The body built for the sample of the test on deep arrays,
`[1, [[1, '2', true, false, f]], [4, {d: {d1: g}}, [5, {e: [false]}]]]`: the third
element is written inside the second, and an array literal stands where a
property is expected. -/
theorem deepArray_test_body :
    String.mk (createFuncBody (analyze (.arr [.num 1,
        .arr [.arr [.num 1, .str "2", .bool true, .bool false, .func 0]],
        .arr [.num 4, .obj [("d", .obj [("d1", .func 1)])],
          .arr [.num 5, .obj [("e", .arr [.bool false])]]]])))
      = "\x7b var newObj = [obj[\"0\"] || 0,[[obj[\"1\"][\"0\"][\"0\"] || 0,"
        ++ "obj[\"1\"][\"0\"][\"1\"] || \"\",obj[\"1\"][\"0\"][\"2\"] || false,"
        ++ "obj[\"1\"][\"0\"][\"3\"] || false,obj[\"1\"][\"0\"][\"4\"]],"
        ++ "[obj[\"2\"][\"0\"] || 0,\x7bd: \x7bd1: obj[\"2\"][\"1\"][\"d\"][\"d1\"]\x7d,"
        ++ "[obj[\"2\"][\"2\"][\"0\"] || 0,\x7be: [obj[\"2\"][\"2\"][\"1\"][\"e\"][\"0\"] || false]"
        ++ "\x7d]\x7d]]]; return newObj; \x7d" := by
  rfl

/-! ## The claims -/

/-- C1 (round trip), at the sample `[[[1]], 2]`: the function compiled from the
sample and applied to the sample returns `[[[1], 2]]`; the second element has
been written into the literal of the first, so the copy is not deep-equal to the
sample. -/
theorem roundTrip_fails_on_nested_array :
    defineAndCall "test" (.arr [.arr [.arr [.num 1]], .num 2])
        (some (.arr [.arr [.arr [.num 1]], .num 2]))
      = .ok (.arr [.arr [.arr [.num 1], .num 2]])
    ∧ Value.arr [.arr [.arr [.num 1], .num 2]] ≠ .arr [.arr [.arr [.num 1]], .num 2] := by
  refine ⟨rfl, ?_⟩
  intro h
  injection h with h
  simp at h

/-- C2 (default substitution), at the keyed sample without fields: `define`
throws a syntax error instead of returning a function, so no object is returned
for the input `{a: 5}`. -/
theorem defaultSubstitution_fails_on_empty_sample :
    defineAndCall "test" (.obj []) (some (.obj [("a", .num 5)])) = .error .syntaxError := by
  rfl

/-- C3 (no-input invocation), at the schema `{a: 1, b: 'x', d: {d1: true}}`:
calling the compiled function without an argument throws a `TypeError`. -/
theorem noInput_throws :
    defineAndCall "test"
        (.obj [("a", .num 1), ("b", .str "x"), ("d", .obj [("d1", .bool true)])]) none
      = .error .typeError := by
  rfl

/-- C4 (structural mismatch), at the schema `{d: {d1: true}}` and the input
`{}`: the call throws a `TypeError`. -/
theorem missingContainer_throws :
    defineAndCall "test" (.obj [("d", .obj [("d1", .bool true)])]) (some (.obj []))
      = .error .typeError := by
  rfl

/-- C5 (define-once): let `key` be defined in the registry, that is, the table
holds a function under `key`, or the call `define(key, first)` on it returns
one.  Then, whatever the compile step does on any sample (return any function
object or throw), after that call and any further `define` calls every
`define(key, sample)` throws, leaves the whole table as it is, and `key` still
maps to the function stored first. -/
theorem define_once {S F : Type} (build : S → Except JSError F) (table : List (String × F))
    (key : String) (first : S) (func : F) (calls : List (String × S)) (sample : S)
    (h : (DeepCopy.defineWith build table key first).1 = .ok func
      ∨ lookupOwn table key = some func) :
    DeepCopy.defineWith build
        (DeepCopy.defineAllWith build (DeepCopy.defineWith build table key first).2 calls)
        key sample
        = (.error (.error (key ++ "is already defined.")),
            DeepCopy.defineAllWith build (DeepCopy.defineWith build table key first).2 calls)
      ∧ lookupOwn
          (DeepCopy.defineAllWith build (DeepCopy.defineWith build table key first).2 calls) key
        = some func := by
  have hfirst : lookupOwn (DeepCopy.defineWith build table key first).2 key = some func := by
    rcases h with h | h
    · exact defineWith_ok_entry build table key first func h
    · exact defineWith_preserves_entry build table key func h key first
  have hentry := defineAllWith_preserves_entry build calls _ key func hfirst
  exact ⟨defineWith_of_entry build _ key func sample hentry, hentry⟩

/-- Witness of C5, at the compile step of the model: `test` defined from the
sample `1` on the empty table, then `other` defined, then `test` defined
again. -/
theorem define_once_witness :
    ((DeepCopy.defineWith (fun o => createFunc (analyze o)) [] "test" (.num 1)).1
        = .ok ⟨"\x7b var newObj = obj || 0; return newObj; \x7d".toList, .path [] (some .zero)⟩
      ∨ lookupOwn ([] : List (String × Proc)) "test"
        = some ⟨"\x7b var newObj = obj || 0; return newObj; \x7d".toList,
            .path [] (some .zero)⟩)
      ∧ (DeepCopy.defineWith (fun o => createFunc (analyze o))
            (DeepCopy.defineAllWith (fun o => createFunc (analyze o))
              (DeepCopy.defineWith (fun o => createFunc (analyze o)) [] "test" (.num 1)).2
              [("other", .str "x")])
            "test" (.bool true)
          = (.error (.error ("test" ++ "is already defined.")),
              DeepCopy.defineAllWith (fun o => createFunc (analyze o))
                (DeepCopy.defineWith (fun o => createFunc (analyze o)) [] "test" (.num 1)).2
                [("other", .str "x")])
        ∧ lookupOwn
            (DeepCopy.defineAllWith (fun o => createFunc (analyze o))
              (DeepCopy.defineWith (fun o => createFunc (analyze o)) [] "test" (.num 1)).2
              [("other", .str "x")]) "test"
          = some ⟨"\x7b var newObj = obj || 0; return newObj; \x7d".toList,
              .path [] (some .zero)⟩) :=
  ⟨.inl rfl, define_once (fun o => createFunc (analyze o)) [] "test" (.num 1) _
    [("other", .str "x")] (.bool true) (.inl rfl)⟩

/-- C6 (define on a fresh key), at the key `constructor` on the fresh registry
with the sample `1`: `define` throws "already defined" and stores nothing. -/
theorem define_fresh_inherited_key_throws :
    DeepCopy.new.define "constructor" (.num 1)
      = (.error (.error "constructoris already defined."), DeepCopy.new) := by
  rfl

theorem analyzeHeap_circular (depth : Nat) :
    analyzeHeap circularSample depth (.ref 0) = none
      ∧ analyzeHeap circularSample depth (.ref 1) = none := by
  induction depth with
  | zero => exact ⟨rfl, rfl⟩
  | succ n ih =>
    constructor
    · show (mapObjectOpt (analyzeHeap circularSample n) [("a", .num 1), ("b", .ref 1)] []).map
        Desc.keyed = none
      cases ha : analyzeHeap circularSample n (.num 1) <;> simp [mapObjectOpt, ha, ih.2]
    · show (mapObjectOpt (analyzeHeap circularSample n) [("a", .num 2), ("b", .ref 0)] []).map
        Desc.keyed = none
      cases ha : analyzeHeap circularSample n (.num 2) <;> simp [mapObjectOpt, ha, ih.1]

theorem analyzeHeap_multiCircular (depth : Nat) :
    analyzeHeap multiCircularSample depth (.ref 0) = none
      ∧ analyzeHeap multiCircularSample depth (.ref 1) = none := by
  induction depth with
  | zero => exact ⟨rfl, rfl⟩
  | succ n ih =>
    constructor
    · show (mapObjectOpt (analyzeHeap multiCircularSample n)
        [("a", .num 1), ("b", .ref 1), ("c", .ref 2)] []).map Desc.keyed = none
      cases ha : analyzeHeap multiCircularSample n (.num 1) <;> simp [mapObjectOpt, ha, ih.2]
    · show (mapObjectOpt (analyzeHeap multiCircularSample n)
        [("a", .num 2), ("b", .ref 0), ("c", .ref 2)] []).map Desc.keyed = none
      cases ha : analyzeHeap multiCircularSample n (.num 2) <;> simp [mapObjectOpt, ha, ih.1]

/-- C7 (cyclic sample tolerance), at the two circular samples of the tests:
whatever nesting of calls is allowed, `analyze` does not return on either. -/
theorem analyze_circular_never_returns (depth : Nat) :
    analyzeHeap circularSample depth (.ref 0) = none
      ∧ analyzeHeap multiCircularSample depth (.ref 0) = none :=
  ⟨(analyzeHeap_circular depth).1, (analyzeHeap_multiCircular depth).1⟩

/-- C8 (extra fields are dropped), at the keyed sample without fields: the body
built for it keeps the `%s` hole, and `define` throws a syntax error instead of
returning a function. -/
theorem emptySample_body_has_hole :
    String.mk (createFuncBody (analyze (.obj [])))
        = "\x7b var newObj = \x7b%s\x7d; return newObj; \x7d"
      ∧ (DeepCopy.new.define "test" (.obj [])).1 = .error .syntaxError :=
  ⟨rfl, rfl⟩

/-- C9 (default table): `resolveDefault` gives the suffix of the four kinds
with a default and the empty suffix for every other kind string. -/
theorem resolveDefault_table (type : String) :
    resolveDefault type
        = (if type = "string" then " || \"\"".toList
          else if type = "number" then " || 0".toList
          else if type = "boolean" then " || false".toList
          else if type = "null" then " || null".toList
          else [])
      ∧ resolveDefault "undefined" = [] ∧ resolveDefault "function" = []
      ∧ resolveDefault "symbol" = [] ∧ resolveDefault "object" = [] := by
  refine ⟨?_, rfl, rfl, rfl, rfl⟩
  unfold resolveDefault
  split_ifs <;> rfl

/-- C10 (shape analysis), at the sample whose one own property is named
`__proto__` (the value of `JSON.parse('{"__proto__": 1}')`): `analyze` returns
the descriptor of the empty object, where the descriptor isomorphic to the
sample has the key `__proto__` with the kind `number`. -/
theorem analyze_drops_proto_key :
    analyze (.obj [("__proto__", .num 1)]) = .keyed []
      ∧ shapeOf (.obj [("__proto__", .num 1)]) = .keyed [("__proto__", .kind "number")] :=
  ⟨rfl, rfl⟩

/-! ## Samples of the same shape -/

theorem analyze_of_scalar_kind (v : Value) (type : String)
    (h : (isScalar v && decide (kindOf v = type)) = true) : analyze v = .kind type := by
  simp only [Bool.and_eq_true, decide_eq_true_eq] at h
  obtain ⟨hs, hk⟩ := h
  subst hk
  cases v <;> first | rfl | exact absurd hs (by simp [isScalar])

mutual
theorem analyze_eq_of_sameShape :
    ∀ a b : Value, sameShape a b = true → analyze a = analyze b
  | .arr xs, b, h => by
    cases b with
    | arr ys =>
      simp only [sameShape] at h
      simp only [analyze, analyzeItems_eq_of_sameShape xs ys h]
    | _ => simp [sameShape] at h
  | .obj fs, b, h => by
    cases b with
    | obj gs =>
      simp only [sameShape] at h
      simp only [analyze, analyzeFields_eq_of_sameShape fs gs [] h]
    | _ => simp [sameShape] at h
  | .undefined, b, h => (analyze_of_scalar_kind b "undefined" (by simpa [sameShape] using h)).symm
  | .null, b, h => (analyze_of_scalar_kind b "null" (by simpa [sameShape] using h)).symm
  | .bool _, b, h => (analyze_of_scalar_kind b "boolean" (by simpa [sameShape] using h)).symm
  | .num _, b, h => (analyze_of_scalar_kind b "number" (by simpa [sameShape] using h)).symm
  | .str _, b, h => (analyze_of_scalar_kind b "string" (by simpa [sameShape] using h)).symm
  | .func _, b, h => (analyze_of_scalar_kind b "function" (by simpa [sameShape] using h)).symm
theorem analyzeItems_eq_of_sameShape :
    ∀ xs ys : List Value, sameShapeItems xs ys = true → analyzeItems xs = analyzeItems ys
  | [], ys, h => by
    cases ys with
    | nil => rfl
    | cons y rest => simp [sameShapeItems] at h
  | x :: xs, ys, h => by
    cases ys with
    | nil => simp [sameShapeItems] at h
    | cons y rest =>
      simp only [sameShapeItems, Bool.and_eq_true] at h
      simp only [analyzeItems, analyze_eq_of_sameShape x y h.1,
        analyzeItems_eq_of_sameShape xs rest h.2]
theorem analyzeFields_eq_of_sameShape :
    ∀ (fs gs : List (String × Value)) (result : List (String × Desc)),
      sameShapeFields fs gs = true → analyzeFields fs result = analyzeFields gs result
  | [], gs, result, h => by
    cases gs with
    | nil => rfl
    | cons g rest => simp [sameShapeFields] at h
  | (key, x) :: fs, gs, result, h => by
    cases gs with
    | nil => simp [sameShapeFields] at h
    | cons g rest =>
      obtain ⟨other, y⟩ := g
      simp only [sameShapeFields, Bool.and_eq_true, decide_eq_true_eq] at h
      obtain ⟨⟨hk, hxy⟩, hrest⟩ := h
      subst hk
      simp only [analyzeFields, analyze_eq_of_sameShape x y hxy]
      exact analyzeFields_eq_of_sameShape fs rest _ hrest
end

/-- C11 (independence from sample values): two samples of the same shape, with
the same kind at every leaf, have the same descriptor, give the same body text
to the `Function` constructor, hence the same compiled function or the same
error, and `define` returns the same on both from any registry. -/
theorem sameShape_same_source (a b : Value) (h : sameShape a b = true) :
    analyze a = analyze b
      ∧ createFuncBody (analyze a) = createFuncBody (analyze b)
      ∧ createFunc (analyze a) = createFunc (analyze b)
      ∧ ∀ (self : DeepCopy) (key : String), self.define key a = self.define key b := by
  have hab := analyze_eq_of_sameShape a b h
  refine ⟨hab, by rw [hab], by rw [hab], ?_⟩
  intro self key
  simp only [DeepCopy.define, hab]

/-- Witness of C11: the samples `{a: 1, b: ['x', null]}` and
`{a: 7, b: ['', null]}`. -/
theorem sameShape_same_source_witness :
    sameShape (.obj [("a", .num 1), ("b", .arr [.str "x", .null])])
        (.obj [("a", .num 7), ("b", .arr [.str "", .null])]) = true
      ∧ (analyze (.obj [("a", .num 1), ("b", .arr [.str "x", .null])])
          = analyze (.obj [("a", .num 7), ("b", .arr [.str "", .null])])
        ∧ createFuncBody (analyze (.obj [("a", .num 1), ("b", .arr [.str "x", .null])]))
          = createFuncBody (analyze (.obj [("a", .num 7), ("b", .arr [.str "", .null])]))
        ∧ createFunc (analyze (.obj [("a", .num 1), ("b", .arr [.str "x", .null])]))
          = createFunc (analyze (.obj [("a", .num 7), ("b", .arr [.str "", .null])]))
        ∧ ∀ (self : DeepCopy) (key : String),
          self.define key (.obj [("a", .num 1), ("b", .arr [.str "x", .null])])
            = self.define key (.obj [("a", .num 7), ("b", .arr [.str "", .null])])) :=
  ⟨rfl, sameShape_same_source _ _ rfl⟩

/-! ## The function compiled from a leaf -/

theorem createFuncExpr_kind (type : String) :
    createFuncExpr (.kind type) = "obj".toList ++ resolveDefault type := by
  simp only [createFuncExpr, createFuncStr]
  rw [resolveDefault_eq]
  split_ifs <;> rfl

theorem createFuncBody_kind (type : String) :
    createFuncBody (.kind type)
      = "\x7b var newObj = ".toList ++ ("obj".toList ++ resolveDefault type)
        ++ "; return newObj; \x7d".toList := by
  simp only [createFuncBody, createFuncStr]
  rw [resolveDefault_eq]
  split_ifs <;> rfl

theorem parseBody_kind (type : String) :
    parseBody (createFuncBody (.kind type)) = .ok (.path [] (litOf type)) := by
  rw [createFuncBody_kind, resolveDefault_eq]
  unfold litOf
  split_ifs <;> rfl

theorem analyze_scalar (sample : Value) (h : isScalar sample = true) :
    analyze sample = .kind (kindOf sample) := by
  cases sample <;> first | rfl | exact absurd h (by simp [isScalar])

/-- C14 (scalar schema): for a sample that is a leaf of kind `k`, the
expression is `obj` followed by the default suffix of `k`, the body compiles,
and the function called with `v` (or with nothing, `v` then being `undefined`)
returns `v` when `v` is truthy or `k` has no default, and the default of `k`
otherwise. -/
theorem scalar_schema (sample : Value) (arg : Option Value) (h : isScalar sample = true) :
    createFuncExpr (analyze sample) = "obj".toList ++ resolveDefault (kindOf sample)
      ∧ ∃ func, createFunc (analyze sample) = .ok func
        ∧ func.call arg = .ok (substituted (kindOf sample) (arg.getD .undefined)) := by
  rw [analyze_scalar sample h]
  refine ⟨createFuncExpr_kind _, ⟨createFuncBody (.kind (kindOf sample)),
    .path [] (litOf (kindOf sample))⟩, ?_, ?_⟩
  · simp only [createFunc, parseBody_kind]
  · simp only [Proc.call, evalExpr, getPath, substituted]
    cases litOf (kindOf sample) with
    | none => rfl
    | some d => split_ifs <;> rfl

/-- Witness of C14: the sample `'x'`, of kind `string`, called without an
argument. -/
theorem scalar_schema_witness :
    isScalar (.str "x") = true
      ∧ (createFuncExpr (analyze (.str "x")) = "obj".toList ++ resolveDefault (kindOf (.str "x"))
        ∧ ∃ func, createFunc (analyze (.str "x")) = .ok func
          ∧ func.call none = .ok (substituted (kindOf (.str "x")) ((none : Option Value).getD
            .undefined))) :=
  ⟨rfl, scalar_schema (.str "x") none rfl⟩

/-! ## Descriptors on which the template and the direct rendering differ -/

/-- C12 (nested-path code synthesis), at the descriptor `[[['number']], 'number']`,
in which no container is empty and no field is named: the expression built by
`createFunc` writes the second element of the root inside the first element,
where the compositional literal keeps it in the root. -/
theorem nested_sibling_misplaced :
    noEmpty (.seq [.seq [.seq [.kind "number"]], .kind "number"]) = true
      ∧ keysOk (.seq [.seq [.seq [.kind "number"]], .kind "number"]) = true
      ∧ String.mk (createFuncExpr (.seq [.seq [.seq [.kind "number"]], .kind "number"]))
        = "[[[obj[\"0\"][\"0\"][\"0\"] || 0],obj[\"1\"] || 0]]"
      ∧ String.mk (render (.seq [.seq [.seq [.kind "number"]], .kind "number"]) "obj".toList)
        = "[[[obj[\"0\"][\"0\"][\"0\"] || 0]],obj[\"1\"] || 0]" :=
  ⟨rfl, rfl, rfl, rfl⟩

/-- C13 (empty containers), at three samples.  For the sample of the test,
`{a: {}, b: [], c: [{}, {c1: {c2: {}}}], d: false}`, the body nests every later
field inside the empty container before it and has no `{}` or `[]`, where the
direct rendering has them.  For `{a: {}, d: false}` the compiled function
returns `{a: {d: false}}` on the sample itself.  For the empty array the body
keeps the placeholder `%s`. -/
theorem empty_container_swallows_siblings :
    String.mk (createFuncBody (analyze (.obj [("a", .obj []), ("b", .arr []),
        ("c", .arr [.obj [], .obj [("c1", .obj [("c2", .obj [])])]]), ("d", .bool false)])))
        = "\x7b var newObj = \x7ba: \x7bb: [c: [\x7b\x7bc1: \x7bc2: "
          ++ "\x7bd: obj[\"d\"] || false\x7d\x7d\x7d\x7d]]\x7d\x7d; return newObj; \x7d"
      ∧ String.mk (render (analyze (.obj [("a", .obj []), ("b", .arr []),
        ("c", .arr [.obj [], .obj [("c1", .obj [("c2", .obj [])])]]), ("d", .bool false)]))
          "obj".toList)
        = "\x7ba: \x7b\x7d,b: [],c: [\x7b\x7d,\x7bc1: \x7bc2: \x7b\x7d\x7d\x7d],"
          ++ "d: obj[\"d\"] || false\x7d"
      ∧ defineAndCall "test" (.obj [("a", .obj []), ("d", .bool false)])
          (some (.obj [("a", .obj []), ("d", .bool false)]))
        = .ok (.obj [("a", .obj [("d", .bool false)])])
      ∧ String.mk (createFuncBody (analyze (.arr [])))
        = "\x7b var newObj = [%s]; return newObj; \x7d"
      ∧ hasHole (createFuncBody (analyze (.arr []))) = true :=
  ⟨rfl, rfl, rfl, rfl, rfl⟩

/-! ## Texts without the placeholder -/

theorem hasHoleFrom_append (a b : Str) :
    ∀ p : Bool, hasHoleFrom p (a ++ b) = (hasHoleFrom p a || hasHoleFrom (afterText p a) b) := by
  induction a with
  | nil => intro p; simp [hasHoleFrom, afterText]
  | cons c t ih => intro p; simp [hasHoleFrom, afterText, ih, Bool.or_assoc]

theorem afterText_append (a b : Str) :
    ∀ p : Bool, afterText p (a ++ b) = afterText (afterText p a) b := by
  induction a with
  | nil => intro p; rfl
  | cons c t ih => intro p; simp [afterText, ih]

theorem hasHoleFrom_mono (s : Str) (h : hasHoleFrom true s = false) :
    hasHoleFrom false s = false := by
  cases s with
  | nil => rfl
  | cons c t =>
    simp only [hasHoleFrom, Bool.or_eq_false_iff] at h ⊢
    exact ⟨by simp, h.2⟩

theorem hasHole_of_hasHoleFrom (p : Bool) (s : Str) (h : hasHoleFrom p s = false) :
    hasHole s = false := by
  cases p with
  | false => exact h
  | true => exact hasHoleFrom_mono s h

theorem hasHoleFrom_tail (p : Bool) (c : Char) (t : Str) (h : hasHoleFrom p (c :: t) = false) :
    hasHoleFrom (decide (c = '%')) t = false := by
  simp only [hasHoleFrom, Bool.or_eq_false_iff] at h
  exact h.2

/-- The placeholder is the two characters `%s` in a row somewhere in the text. -/
theorem hasHole_of_infix (s : Str) (h : ['%', 's'] <:+: s) : hasHole s = true := by
  obtain ⟨a, b, rfl⟩ := h
  simp [hasHole, hasHoleFrom_append, hasHoleFrom]

theorem infix_of_hasHoleFrom :
    ∀ (s : Str) (p : Bool), hasHoleFrom p s = true →
      (p = true ∧ s.head? = some 's') ∨ ['%', 's'] <:+: s
  | [], _, h => by simp [hasHoleFrom] at h
  | c :: t, p, h => by
    simp only [hasHoleFrom, Bool.or_eq_true, Bool.and_eq_true, decide_eq_true_eq] at h
    rcases h with ⟨hp, hc⟩ | h
    · exact Or.inl ⟨hp, by simp [hc]⟩
    · rcases infix_of_hasHoleFrom t _ h with ⟨hc, ht⟩ | hin
      · right
        simp only [decide_eq_true_eq] at hc
        cases t with
        | nil => simp at ht
        | cons d r =>
          simp only [List.head?_cons, Option.some.injEq] at ht
          subst hc ht
          exact ⟨[], r, rfl⟩
      · right
        obtain ⟨a, b, hab⟩ := hin
        exact ⟨c :: a, b, by simp [hab]⟩

theorem hasHole_iff_infix (s : Str) : hasHole s = true ↔ ['%', 's'] <:+: s := by
  constructor
  · intro h
    rcases infix_of_hasHoleFrom s false h with ⟨hp, _⟩ | hin
    · exact absurd hp (by simp)
    · exact hin
  · exact hasHole_of_infix s

theorem safe_of_no_percent : ∀ s : Str, '%' ∉ s → safe s = true
  | [], _ => rfl
  | c :: t, h => by
    simp only [List.mem_cons, not_or] at h
    have ih := safe_of_no_percent t h.2
    have hc : decide (c = '%') = false := by simpa using fun e : c = '%' => h.1 e.symm
    simp only [safe, hasHole, Bool.and_eq_true, Bool.not_eq_true'] at ih ⊢
    simp only [hasHoleFrom, afterText, hc, Bool.false_and, Bool.false_or]
    exact ih

theorem safe_append (a b : Str) (ha : safe a = true) (hb : safe b = true) :
    safe (a ++ b) = true := by
  simp only [safe, hasHole, Bool.and_eq_true, Bool.not_eq_true'] at ha hb ⊢
  simp [hasHoleFrom_append, afterText_append, ha.1, ha.2, hb.1, hb.2]

theorem hasHole_append_of_safe (a b : Str) (ha : safe a = true) (hb : hasHole b = false) :
    hasHole (a ++ b) = false := by
  simp only [safe, hasHole, Bool.and_eq_true, Bool.not_eq_true'] at ha hb ⊢
  simp [hasHoleFrom_append, ha.1, ha.2, hb]

theorem hasHole_of_safe (a : Str) (ha : safe a = true) : hasHole a = false := by
  simp only [safe, Bool.and_eq_true, Bool.not_eq_true'] at ha
  exact ha.1

/-- A text without `%s`, followed by a character other than `%` and `s`, is
safe. -/
theorem safe_append_char (a : Str) (c : Char) (ha : hasHole a = false) (h1 : c ≠ '%')
    (h2 : c ≠ 's') : safe (a ++ [c]) = true := by
  simp only [hasHole] at ha
  simp [safe, hasHole, hasHoleFrom_append, afterText_append, hasHoleFrom, afterText, ha, h1, h2]

/-! ## Replacement in a template whose text before the hole has no `%s` -/

theorem splitFirst_hole_of_clean (post : Str) :
    ∀ (pre : Str) (p : Bool), hasHoleFrom p pre = false →
      splitFirst ['%', 's'] (pre ++ '%' :: 's' :: post) = some (pre, post)
  | [], _, _ => by simp [splitFirst, List.isPrefixOf]
  | c :: t, p, h => by
    have ht := hasHoleFrom_tail p c t h
    have hpre : List.isPrefixOf ['%', 's'] (c :: (t ++ '%' :: 's' :: post)) = false := by
      by_cases hc : c = '%'
      · subst hc
        cases t with
        | nil => simp [List.isPrefixOf]
        | cons d r =>
          have hd : ¬ d = 's' := by
            have h3 : ¬ d = 's' ∧ hasHoleFrom (decide (d = '%')) r = false := by
              simpa [hasHoleFrom] using ht
            exact h3.1
          have hd2 : ('s' == d) = false := by
            rw [beq_eq_false_iff_ne]
            exact fun e => hd e.symm
          simp [List.isPrefixOf, hd2]
      · have hc2 : ('%' == c) = false := by
          rw [beq_eq_false_iff_ne]
          exact fun e => hc e.symm
        simp [List.isPrefixOf, hc2]
    rw [List.cons_append, splitFirst_cons_no_match _ _ _ hpre,
      splitFirst_hole_of_clean post t _ ht]
    rfl

theorem commaHole_mismatch_of_clean (c : Char) (post : Str) (p : Bool) :
    ∀ t : Str, hasHoleFrom p t = false →
      List.isPrefixOf [',', '%', 's'] (c :: (t ++ ',' :: '%' :: 's' :: post)) = false
  | [], _ => by simp [List.isPrefixOf]
  | [d], _ => by simp [List.isPrefixOf]
  | d :: e :: r, h => by
    have h2 : ¬ (d = '%' ∧ e = 's') := by
      intro ⟨hd, he⟩
      subst hd he
      simp [hasHoleFrom] at h
    by_cases hd : d = '%'
    · have he : ('s' == e) = false := by
        rw [beq_eq_false_iff_ne]
        exact fun e2 => h2 ⟨hd, e2.symm⟩
      simp [List.isPrefixOf, he]
    · have hd2 : ('%' == d) = false := by
        rw [beq_eq_false_iff_ne]
        exact fun e2 => hd e2.symm
      simp [List.isPrefixOf, hd2]

theorem commaHole_mismatch_plain (c : Char) (p : Bool) :
    ∀ t : Str, hasHoleFrom p t = false → List.isPrefixOf [',', '%', 's'] (c :: t) = false
  | [], _ => by simp [List.isPrefixOf]
  | [d], _ => by simp [List.isPrefixOf]
  | d :: e :: r, h => by
    have h2 : ¬ (d = '%' ∧ e = 's') := by
      intro ⟨hd, he⟩
      subst hd he
      simp [hasHoleFrom] at h
    by_cases hd : d = '%'
    · have he : ('s' == e) = false := by
        rw [beq_eq_false_iff_ne]
        exact fun e2 => h2 ⟨hd, e2.symm⟩
      simp [List.isPrefixOf, he]
    · have hd2 : ('%' == d) = false := by
        rw [beq_eq_false_iff_ne]
        exact fun e2 => hd e2.symm
      simp [List.isPrefixOf, hd2]

theorem splitFirst_commaHole_of_clean (post : Str) :
    ∀ (pre : Str) (p : Bool), hasHoleFrom p pre = false →
      splitFirst [',', '%', 's'] (pre ++ ',' :: '%' :: 's' :: post) = some (pre, post)
  | [], _, _ => by simp [splitFirst, List.isPrefixOf]
  | c :: t, p, h => by
    have ht := hasHoleFrom_tail p c t h
    rw [List.cons_append, splitFirst_cons_no_match _ _ _
      (commaHole_mismatch_of_clean c post _ t ht), splitFirst_commaHole_of_clean post t _ ht]
    rfl

/-- Filling the first hole: when no `%s` stands before the hole and the value
has no `$`, the value takes the place of the hole. -/
theorem replace_hole_of_clean (pre post value : Str) (hpre : hasHole pre = false)
    (hval : '$' ∉ value) :
    replace (pre ++ '%' :: 's' :: post) value none = pre ++ value ++ post := by
  have hne : pre ++ '%' :: 's' :: post ≠ [] := by simp
  simp only [replace, hne, if_false, jsReplace, Option.getD, holeExp]
  show replaceFirst ['%', 's'] value (pre ++ '%' :: 's' :: post) = _
  simp only [replaceFirst, splitFirst_hole_of_clean post pre false hpre,
    getSubstitution_of_no_dollar _ _ _ value hval]

/-- Removing the first `,%s` when no `%s` stands before it. -/
theorem replace_commaHole_of_clean (pre post : Str) (hpre : hasHole pre = false) :
    replace (pre ++ ',' :: '%' :: 's' :: post) [] (some commaHoleExp) = pre ++ post := by
  have hne : pre ++ ',' :: '%' :: 's' :: post ≠ [] := by simp
  simp only [replace, hne, if_false, jsReplace, Option.getD, commaHoleExp]
  show replaceFirst [',', '%', 's'] [] (pre ++ ',' :: '%' :: 's' :: post) = _
  simp only [replaceFirst, splitFirst_commaHole_of_clean post pre false hpre, getSubstitution,
    List.append_nil]

/-- Text without `%s` has no `,%s` to remove. -/
theorem replaceAllAux_of_clean :
    ∀ (str seen : Str) (p : Bool), hasHoleFrom p str = false →
      replaceAllAux [',', '%', 's'] [] 0 seen str = str
  | [], _, _, _ => rfl
  | c :: t, seen, p, h => by
    have ht := hasHoleFrom_tail p c t h
    rw [replaceAllAux_no_match _ _ _ _ _ (commaHole_mismatch_plain c _ t ht),
      replaceAllAux_of_clean t (c :: seen) _ ht]

/-- Removing every `,%s` from a text that has no `%s` before its first `,%s`. -/
theorem replaceAllAux_commaHole_of_clean (post : Str) :
    ∀ (pre seen : Str) (p : Bool), hasHoleFrom p pre = false →
      replaceAllAux [',', '%', 's'] [] 0 seen (pre ++ ',' :: '%' :: 's' :: post)
        = pre ++ replaceAllAux [',', '%', 's'] [] 0 [] post
  | [], seen, _, _ => by
    rw [List.nil_append, replaceAllAux_match, replaceAllAux_seen]
    rfl
  | c :: t, seen, p, h => by
    have ht := hasHoleFrom_tail p c t h
    rw [List.cons_append, replaceAllAux_no_match _ _ _ _ _
      (commaHole_mismatch_of_clean c post _ t ht),
      replaceAllAux_commaHole_of_clean post t (c :: seen) _ ht]
    rfl

theorem replaceAllAux_junk (rest : Str) :
    ∀ n : Nat, replaceAllAux [',', '%', 's'] [] 0 [] (junk n ++ rest)
      = replaceAllAux [',', '%', 's'] [] 0 [] rest
  | 0 => rfl
  | n + 1 => by
    have h := replaceAllAux_commaHole_of_clean (junk n ++ rest) [] [] false rfl
    simp only [List.nil_append] at h
    show replaceAllAux [',', '%', 's'] [] 0 [] (',' :: '%' :: 's' :: (junk n ++ rest)) = _
    rw [h, replaceAllAux_junk rest n]

theorem junk_append_commaHole (post : Str) :
    ∀ n : Nat, junk n ++ ',' :: '%' :: 's' :: post = junk (n + 1) ++ post
  | 0 => rfl
  | n + 1 => by
    show ',' :: '%' :: 's' :: (junk n ++ ',' :: '%' :: 's' :: post) = _
    rw [junk_append_commaHole post n]
    rfl

/-! ## The loops of `createFuncStr` and of the rendering over entries -/

theorem accessor_eq (key name : Str) :
    key ++ "[\"".toList ++ name ++ "\"]".toList = key ++ accessor name := by
  show key ++ ['[', '"'] ++ name ++ ['"', ']'] = key ++ ('[' :: '"' :: name ++ ['"', ']'])
  simp

theorem createFuncStrFields_eq_entryLoop (key : Str) :
    ∀ (fields : List (String × Desc)) (str : Str),
      createFuncStrFields fields key str = entryLoop (fieldEntries fields) key str
  | [], _ => rfl
  | (k, c) :: rest, str => by
    have hval : k.toList ++ ": %s,%s".toList = (k.toList ++ [':', ' ']) ++ "%s,%s".toList := by
      show k.toList ++ [':', ' ', '%', 's', ',', '%', 's']
        = (k.toList ++ [':', ' ']) ++ ['%', 's', ',', '%', 's']
      simp
    simp only [createFuncStrFields, fieldEntries, List.map_cons, entryLoop, accessor_eq, hval]
    exact createFuncStrFields_eq_entryLoop key rest _

theorem createFuncStrItems_eq_entryLoop (key : Str) :
    ∀ (items : List Desc) (index : Nat) (str : Str),
      createFuncStrItems items index key str = entryLoop (itemEntries items index) key str
  | [], _, _ => rfl
  | c :: rest, index, str => by
    simp only [createFuncStrItems, itemEntries, entryLoop, accessor_eq, List.nil_append]
    exact createFuncStrItems_eq_entryLoop key rest _ _

theorem renderFields_eq_renderEntries (path : Str) :
    ∀ fields : List (String × Desc),
      renderFields fields path = renderEntries (fieldEntries fields) path
  | [] => rfl
  | (k, c) :: rest => by
    have ih := renderFields_eq_renderEntries path rest
    simp only [renderEntries, fieldEntries] at ih
    simp [renderFields, renderEntries, fieldEntries, ih]

theorem renderItems_eq_renderEntries (path : Str) :
    ∀ (items : List Desc) (index : Nat),
      renderItems items index path = renderEntries (itemEntries items index) path
  | [], _ => rfl
  | c :: rest, index => by
    have ih := renderItems_eq_renderEntries path rest (index + 1)
    simp only [renderEntries] at ih
    simp [renderItems, renderEntries, itemEntries, ih]

/-- The text of a container: its own template in the first hole of the parent,
the loop over its entries, and the first `,%s` removed. -/
theorem createFuncStr_container (d : Desc) (key : Str) (parentStr : Option Str)
    (hd : d.isLeaf = false) :
    createFuncStr d key parentStr
      = replace (entryLoop d.entries key
          (orStr (parentStr.map fun p =>
              replace p (d.opener :: '%' :: 's' :: d.closer :: [',', '%', 's']) none)
            (d.opener :: '%' :: 's' :: d.closer :: [',', '%', 's'])))
          [] (some commaHoleExp) := by
  cases d with
  | kind t => exact absurd hd (by simp [Desc.isLeaf])
  | seq items =>
    simp only [createFuncStr, createFuncStrItems_eq_entryLoop, Desc.entries, Desc.opener,
      Desc.closer]
    rfl
  | keyed fields =>
    simp only [createFuncStr, createFuncStrFields_eq_entryLoop, Desc.entries, Desc.opener,
      Desc.closer]
    rfl

/-- The rendering of a container: its entries joined by commas between its
opening and closing characters. -/
theorem render_container (d : Desc) (path : Str) (hd : d.isLeaf = false) :
    render d path = d.opener :: joinComma (renderEntries d.entries path) ++ [d.closer] := by
  cases d with
  | kind t => exact absurd hd (by simp [Desc.isLeaf])
  | seq items =>
    simp only [render, renderItems_eq_renderEntries, Desc.entries, Desc.opener, Desc.closer]
  | keyed fields =>
    simp only [render, renderFields_eq_renderEntries, Desc.entries, Desc.opener, Desc.closer]

theorem children_eq_entries (d : Desc) : d.children = d.entries.map fun e => e.2.2 := by
  cases d with
  | kind t => rfl
  | seq items =>
    simp only [Desc.children, Desc.entries]
    suffices h : ∀ (items : List Desc) (i : Nat),
        items = (itemEntries items i).map fun e => e.2.2 from h items 0
    intro items
    induction items with
    | nil => intro i; rfl
    | cons c rest ih => intro i; simp [itemEntries, ← ih (i + 1)]
  | keyed fields =>
    simp [Desc.children, Desc.entries, fieldEntries]

/-! ## Cleanliness of the texts of the template -/

theorem digitChar_clean (m : Nat) (hm : m < 10) :
    Nat.digitChar m ≠ '%' ∧ Nat.digitChar m ≠ '$' := by
  interval_cases m <;> decide

theorem toDigitsCore_clean :
    ∀ (fuel n : Nat) (ds : List Char), (∀ c ∈ ds, c ≠ '%' ∧ c ≠ '$') →
      ∀ c ∈ Nat.toDigitsCore 10 fuel n ds, c ≠ '%' ∧ c ≠ '$'
  | 0, _, ds, h => by simpa [Nat.toDigitsCore] using h
  | fuel + 1, n, ds, h => by
    have hds : ∀ c ∈ Nat.digitChar (n % 10) :: ds, c ≠ '%' ∧ c ≠ '$' := by
      intro c hc
      rcases List.mem_cons.1 hc with rfl | hc
      · exact digitChar_clean _ (Nat.mod_lt _ (by decide))
      · exact h c hc
    simp only [Nat.toDigitsCore]
    split_ifs
    · exact hds
    · exact toDigitsCore_clean fuel (n / 10) _ hds

theorem repr_clean (n : Nat) : '%' ∉ (Nat.repr n).toList ∧ '$' ∉ (Nat.repr n).toList := by
  have h := toDigitsCore_clean (n + 1) n [] (by simp)
  have hrepr : (Nat.repr n).toList = Nat.toDigitsCore 10 (n + 1) n [] := rfl
  rw [hrepr]
  exact ⟨fun hm => (h _ hm).1 rfl, fun hm => (h _ hm).2 rfl⟩

theorem contains_dollar (s : Str) : s.contains '$' = false ↔ '$' ∉ s := by
  simp

theorem resolveDefault_safe (type : String) : safe (resolveDefault type) = true := by
  rw [resolveDefault_eq]
  split_ifs <;> rfl

theorem safe_accessor (name : Str) (h : hasHole name = false) : safe (accessor name) = true := by
  have h1 : accessor name = ['[', '"'] ++ ((name ++ ['"']) ++ [']']) := by simp [accessor]
  rw [h1]
  exact safe_append _ _ rfl (safe_append _ _ (safe_append_char name '"' h (by decide) (by decide))
    rfl)

theorem pathOk_child (path name : Str) (hp : pathOk path = true) (h1 : hasHole name = false)
    (h2 : '$' ∉ name) : pathOk (path ++ accessor name) = true := by
  simp only [pathOk, Bool.and_eq_true, Bool.not_eq_true', contains_dollar] at hp ⊢
  refine ⟨safe_append _ _ hp.1 (safe_accessor name h1), ?_⟩
  simp [accessor, hp.2, h2]

theorem safe_joinComma : ∀ texts : List Str, (∀ t ∈ texts, safe t = true) →
    safe (joinComma texts) = true
  | [], _ => rfl
  | [e], h => by simpa [joinComma] using h e (List.mem_cons_self _ _)
  | e :: f :: rest, h => by
    have ih := safe_joinComma (f :: rest) (fun t ht => h t (List.mem_cons_of_mem _ ht))
    have he := h e (List.mem_cons_self _ _)
    have hshape : joinComma (e :: f :: rest) = e ++ ([','] ++ joinComma (f :: rest)) := by
      simp [joinComma]
    rw [hshape]
    exact safe_append _ _ he (safe_append _ _ rfl ih)

theorem safe_bracket (o c : Char) (inner : Str) (ho : safe [o] = true) (hc : safe [c] = true)
    (h : safe inner = true) : safe (o :: inner ++ [c]) = true := by
  have hshape : o :: inner ++ [c] = [o] ++ (inner ++ [c]) := by simp
  rw [hshape]
  exact safe_append _ _ ho (safe_append _ _ h hc)

theorem opener_closer_facts (d : Desc) :
    safe [d.opener] = true ∧ safe [d.closer] = true ∧ d.opener ≠ '$' ∧ d.closer ≠ '$'
      ∧ d.opener ≠ ',' ∧ d.closer ≠ ',' := by
  cases d <;> simp only [Desc.opener, Desc.closer] <;> decide

theorem keyOk_facts (key : String) (h : keyOk key = true) :
    hasHole key.toList = false ∧ '$' ∉ key.toList := by
  simpa [keyOk] using h

theorem entryOk_fieldEntries (fields : List (String × Desc)) (h : keysOkFields fields = true) :
    ∀ e ∈ fieldEntries fields, entryOk e = true ∧ keysOk e.2.2 = true := by
  induction fields with
  | nil => simp [fieldEntries]
  | cons p rest ih =>
    obtain ⟨k, c⟩ := p
    simp only [keysOkFields, Bool.and_eq_true] at h
    obtain ⟨⟨hk, hc⟩, hrest⟩ := h
    obtain ⟨hk1, hk2⟩ := keyOk_facts k hk
    intro e he
    simp only [fieldEntries, List.map_cons, List.mem_cons] at he
    rcases he with rfl | he
    · refine ⟨?_, hc⟩
      have hs : safe (k.toList ++ [':', ' ']) = true := by
        have h1 : k.toList ++ [':', ' '] = (k.toList ++ [':']) ++ [' '] := by simp
        rw [h1]
        exact safe_append _ _ (safe_append_char _ ':' hk1 (by decide) (by decide)) rfl
      have hk3 : '$' ∉ k.data := hk2
      have hk4 : hasHole k.data = false := hk1
      have hs2 : safe (k.data ++ [':', ' ']) = true := hs
      simp [entryOk, hs2, hk4, hk3]
    · exact ih hrest e he

theorem entryOk_itemEntries :
    ∀ (items : List Desc) (index : Nat), keysOkItems items = true →
      ∀ e ∈ itemEntries items index, entryOk e = true ∧ keysOk e.2.2 = true
  | [], _, _ => by simp [itemEntries]
  | c :: rest, index, h => by
    simp only [keysOkItems, Bool.and_eq_true] at h
    intro e he
    simp only [itemEntries, List.mem_cons] at he
    rcases he with rfl | he
    · refine ⟨?_, h.1⟩
      obtain ⟨h1, h2⟩ := repr_clean index
      have h3 := hasHole_of_safe _ (safe_of_no_percent _ h1)
      have h4 : '$' ∉ (Nat.repr index).data := h2
      have h5 : hasHole (Nat.repr index).data = false := h3
      simp [entryOk, h4, h5]
      rfl
    · exact entryOk_itemEntries rest (index + 1) h.2 e he

theorem entryOk_entries (d : Desc) (h : keysOk d = true) :
    ∀ e ∈ d.entries, entryOk e = true ∧ keysOk e.2.2 = true := by
  cases d with
  | kind t => simp [Desc.entries]
  | seq items => exact entryOk_itemEntries items 0 (by simpa [keysOk] using h)
  | keyed fields => exact entryOk_fieldEntries fields (by simpa [keysOk] using h)

theorem entryOk_facts (e : Str × Str × Desc) (h : entryOk e = true) :
    safe e.1 = true ∧ '$' ∉ e.1 ∧ hasHole e.2.1 = false ∧ '$' ∉ e.2.1 := by
  simpa [entryOk, and_assoc] using h

theorem pathOk_facts (path : Str) (h : pathOk path = true) :
    safe path = true ∧ '$' ∉ path := by
  simpa [pathOk] using h

theorem not_mem_of_contains_false (s : Str) (h : s.contains '$' = false) : '$' ∉ s :=
  (contains_dollar s).1 h

mutual
/-- The rendering of a descriptor with clean field names at a clean path is
safe and has no `$`. -/
theorem render_ok :
    ∀ (d : Desc) (path : Str), keysOk d = true → pathOk path = true →
      safe (render d path) = true ∧ '$' ∉ render d path
  | .kind t, path, _, hp => by
    obtain ⟨hp1, hp2⟩ := pathOk_facts path hp
    refine ⟨safe_append _ _ hp1 (resolveDefault_safe t), ?_⟩
    simp only [render, List.mem_append, not_or]
    exact ⟨hp2, (resolveDefault_clean t).2⟩
  | .seq items, path, h, hp => by
    have hall := renderItems_ok items 0 path (by simpa [keysOk] using h) hp
    refine ⟨safe_bracket _ _ _ rfl rfl (safe_joinComma _ fun t ht => (hall t ht).1), ?_⟩
    have hj := joinComma_not_mem '$' (by decide) _ fun t ht => (hall t ht).2
    simp only [render, List.mem_cons, List.mem_append, not_or]
    exact ⟨⟨by decide, hj⟩, by decide, List.not_mem_nil _⟩
  | .keyed fields, path, h, hp => by
    have hall := renderFields_ok fields path (by simpa [keysOk] using h) hp
    refine ⟨safe_bracket _ _ _ rfl rfl (safe_joinComma _ fun t ht => (hall t ht).1), ?_⟩
    have hj := joinComma_not_mem '$' (by decide) _ fun t ht => (hall t ht).2
    simp only [render, List.mem_cons, List.mem_append, not_or]
    exact ⟨⟨by decide, hj⟩, by decide, List.not_mem_nil _⟩
theorem renderItems_ok :
    ∀ (items : List Desc) (index : Nat) (path : Str), keysOkItems items = true →
      pathOk path = true → ∀ t ∈ renderItems items index path, safe t = true ∧ '$' ∉ t
  | [], _, _, _, _ => by simp [renderItems]
  | c :: rest, index, path, h, hp => by
    simp only [keysOkItems, Bool.and_eq_true] at h
    obtain ⟨h1, h2⟩ := repr_clean index
    have hchild := pathOk_child path (Nat.repr index).toList hp
      (hasHole_of_safe _ (safe_of_no_percent _ h1)) h2
    intro t ht
    simp only [renderItems, List.mem_cons] at ht
    rcases ht with rfl | ht
    · exact render_ok c _ h.1 hchild
    · exact renderItems_ok rest (index + 1) path h.2 hp t ht
theorem renderFields_ok :
    ∀ (fields : List (String × Desc)) (path : Str), keysOkFields fields = true →
      pathOk path = true → ∀ t ∈ renderFields fields path, safe t = true ∧ '$' ∉ t
  | [], _, _, _ => by simp [renderFields]
  | (k, c) :: rest, path, h, hp => by
    simp only [keysOkFields, Bool.and_eq_true] at h
    obtain ⟨⟨hk, hc⟩, hrest⟩ := h
    obtain ⟨hk1, hk2⟩ := keyOk_facts k hk
    have hchild := pathOk_child path k.toList hp hk1 hk2
    intro t ht
    simp only [renderFields, List.mem_cons] at ht
    rcases ht with rfl | ht
    · obtain ⟨hr1, hr2⟩ := render_ok c _ hc hchild
      have hshape : k.toList ++ ':' :: ' ' :: render c (path ++ accessor k.toList)
          = ((k.toList ++ [':']) ++ [' ']) ++ render c (path ++ accessor k.toList) := by simp
      constructor
      · rw [hshape]
        exact safe_append _ _
          (safe_append _ _ (safe_append_char _ ':' hk1 (by decide) (by decide)) rfl) hr1
      · simp only [List.mem_append, List.mem_cons, not_or]
        exact ⟨hk2, by decide, by decide, hr2⟩
    · exact renderFields_ok rest path hrest hp t ht
end

/-! ## The loop over entries on a template with one open hole -/

theorem junk_append_junk (m : Nat) : ∀ n : Nat, junk n ++ junk m = junk (n + m)
  | 0 => by simp [junk]
  | n + 1 => by
    have ih := junk_append_junk m n
    have h1 : n + 1 + m = (n + m) + 1 := by omega
    rw [h1]
    simp only [junk, List.cons_append, ih]

theorem withCommas_eq_joinComma :
    ∀ texts : List Str, texts ≠ [] → withCommas texts = joinComma texts ++ [',']
  | [], h => absurd rfl h
  | [e], _ => by simp [withCommas, joinComma]
  | e :: f :: rest, _ => by
    have ih := withCommas_eq_joinComma (f :: rest) (by simp)
    simp only [withCommas, joinComma] at ih ⊢
    rw [ih]
    simp

/-- The loop over entries that each leave a text of the step form: every entry
is written before the hole, in order, and the `,%s` left by the container
children pile up after the hole. -/
theorem entryLoop_form (key : Str) :
    ∀ (entries : List (Str × Str × Desc)) (pre post : Str), safe pre = true →
      (∀ e ∈ entries, safe (e.1 ++ render e.2.2 (key ++ accessor e.2.1)) = true) →
      (∀ e ∈ entries, stepForm key e (if e.2.2.isLeaf then 0 else 1)) →
      entryLoop entries key (pre ++ '%' :: 's' :: post)
        = pre ++ withCommas (renderEntries entries key)
          ++ '%' :: 's' :: (junk (containerCount entries) ++ post)
  | [], pre, post, _, _, _ => by simp [entryLoop, renderEntries, withCommas, containerCount, junk]
  | e :: rest, pre, post, hpre, hsafe, hstep => by
    have he := hstep e (List.mem_cons_self _ _) pre post hpre
    have hs := hsafe e (List.mem_cons_self _ _)
    have hpre2 : safe ((pre ++ (e.1 ++ render e.2.2 (key ++ accessor e.2.1))) ++ [',']) = true :=
      safe_append _ _ (safe_append _ _ hpre hs) rfl
    have ih := entryLoop_form key rest _ (junk (if e.2.2.isLeaf then 0 else 1) ++ post) hpre2
      (fun f hf => hsafe f (List.mem_cons_of_mem _ hf))
      (fun f hf => hstep f (List.mem_cons_of_mem _ hf))
    simp only [entryLoop, he, ih, renderEntries, List.map_cons, withCommas, containerCount]
    rw [← List.append_assoc (junk (containerCount rest)), junk_append_junk,
      Nat.add_comm (containerCount rest)]
    simp

theorem containerCount_of_leaves :
    ∀ entries : List (Str × Str × Desc), (∀ e ∈ entries, e.2.2.isLeaf = true) →
      containerCount entries = 0
  | [], _ => rfl
  | e :: rest, h => by
    simp only [containerCount, h e (List.mem_cons_self _ _), if_true, Nat.zero_add]
    exact containerCount_of_leaves rest fun f hf => h f (List.mem_cons_of_mem _ hf)

/-- The turn of the loop for a leaf child. -/
theorem stepForm_leaf (key : Str) (e : Str × Str × Desc) (hleaf : e.2.2.isLeaf = true)
    (he : entryOk e = true) (hkey : pathOk key = true) : stepForm key e 0 := by
  obtain ⟨hd, kt, c⟩ := e
  obtain ⟨he1, he2, he3, he4⟩ := entryOk_facts _ he
  obtain ⟨hp1, hp2⟩ := pathOk_facts key hkey
  cases c with
  | seq items => exact absurd hleaf (by simp [Desc.isLeaf])
  | keyed fields => exact absurd hleaf (by simp [Desc.isLeaf])
  | kind t =>
    intro pre post hpre
    have hval1 : '$' ∉ hd ++ "%s,%s".toList := by
      simp only [List.mem_append, not_or]
      exact ⟨he2, by decide⟩
    have hval2 : '$' ∉ key ++ accessor kt ++ resolveDefault t := by
      have he5 : '$' ∉ kt := he4
      have hr := (resolveDefault_clean t).2
      simp [accessor, hp2, he5, hr]
    have hshape : pre ++ (hd ++ "%s,%s".toList) ++ post
        = (pre ++ hd) ++ '%' :: 's' :: (',' :: '%' :: 's' :: post) := by
      show pre ++ (hd ++ ['%', 's', ',', '%', 's']) ++ post = _
      simp
    show createFuncStr (.kind t) (key ++ accessor kt)
        (some (replace (pre ++ '%' :: 's' :: post) (hd ++ "%s,%s".toList) none))
      = (pre ++ (hd ++ render (.kind t) (key ++ accessor kt)) ++ [','])
        ++ '%' :: 's' :: (junk 0 ++ post)
    rw [replace_hole_of_clean pre post _ (hasHole_of_safe pre hpre) hval1, hshape,
      createFuncStr_kind_some _ _ _ (by simp),
      replace_hole_of_clean _ _ _ (hasHole_append_of_safe pre hd hpre (hasHole_of_safe hd he1))
        hval2]
    simp [render, junk]

/-- The text of a container of leaves written into the first hole of a
template: the hole is replaced by the literal of the container followed by
`,%s`. -/
theorem createFuncStr_flat_in_template (d : Desc) (key pre post : Str)
    (hflat : d.isFlat = true) (hkeys : keysOk d = true) (hkey : pathOk key = true)
    (hpre : safe pre = true) :
    createFuncStr d key (some (pre ++ '%' :: 's' :: post))
      = pre ++ render d key ++ ',' :: '%' :: 's' :: post := by
  simp only [Desc.isFlat, Bool.and_eq_true, Bool.not_eq_true', List.all_eq_true,
    List.isEmpty_eq_false] at hflat
  obtain ⟨⟨hleaf, hne⟩, hall⟩ := hflat
  obtain ⟨ho1, hc1, ho2, hc2, ho3, hc3⟩ := opener_closer_facts d
  have hentries := entryOk_entries d hkeys
  have hleaves : ∀ e ∈ d.entries, e.2.2.isLeaf = true := by
    intro e he
    apply hall
    rw [children_eq_entries]
    exact List.mem_map.2 ⟨e, he, rfl⟩
  have hne2 : renderEntries d.entries key ≠ [] := by
    intro h
    apply hne
    rw [children_eq_entries]
    simp only [renderEntries, List.map_eq_nil_iff] at h
    simp [h]
  have hsafe : ∀ e ∈ d.entries, safe (e.1 ++ render e.2.2 (key ++ accessor e.2.1)) = true := by
    intro e he
    obtain ⟨he1, he2, he3, he4⟩ := entryOk_facts _ (hentries e he).1
    exact safe_append _ _ he1
      (render_ok _ _ (hentries e he).2 (pathOk_child key _ hkey he3 he4)).1
  have hloop := entryLoop_form key d.entries (pre ++ [d.opener])
    (d.closer :: ',' :: '%' :: 's' :: post) (safe_append _ _ hpre ho1) hsafe (by
      intro e he
      rw [if_pos (hleaves e he)]
      exact stepForm_leaf key e (hleaves e he) (hentries e he).1 hkey)
  rw [containerCount_of_leaves _ hleaves, withCommas_eq_joinComma _ hne2] at hloop
  have hjoin : safe (joinComma (renderEntries d.entries key)) = true := by
    apply safe_joinComma
    intro t ht
    obtain ⟨e, he, rfl⟩ := List.mem_map.1 ht
    exact hsafe e he
  have hchild : '$' ∉ d.opener :: '%' :: 's' :: d.closer :: [',', '%', 's'] := by
    simp only [List.mem_cons, not_or]
    exact ⟨fun h => ho2 h.symm, by decide, by decide, fun h => hc2 h.symm, by decide, by decide,
      by decide, List.not_mem_nil _⟩
  rw [createFuncStr_container d key _ hleaf]
  simp only [Option.map]
  have hfill : replace (pre ++ '%' :: 's' :: post)
        (d.opener :: '%' :: 's' :: d.closer :: [',', '%', 's']) none
      = (pre ++ [d.opener]) ++ '%' :: 's' :: (d.closer :: ',' :: '%' :: 's' :: post) := by
    rw [replace_hole_of_clean pre post _ (hasHole_of_safe pre hpre) hchild]
    simp
  rw [hfill]
  have hor : orStr (some ((pre ++ [d.opener])
        ++ '%' :: 's' :: (d.closer :: ',' :: '%' :: 's' :: post)))
        (d.opener :: '%' :: 's' :: d.closer :: [',', '%', 's'])
      = (pre ++ [d.opener]) ++ '%' :: 's' :: (d.closer :: ',' :: '%' :: 's' :: post) := by
    cases pre <;> rfl
  rw [hor, hloop]
  have hshape : pre ++ [d.opener] ++ (joinComma (renderEntries d.entries key) ++ [','])
        ++ '%' :: 's' :: (junk 0 ++ d.closer :: ',' :: '%' :: 's' :: post)
      = (pre ++ [d.opener] ++ joinComma (renderEntries d.entries key))
        ++ ',' :: '%' :: 's' :: (d.closer :: ',' :: '%' :: 's' :: post) := by
    simp [junk]
  rw [hshape, replace_commaHole_of_clean _ _
    (hasHole_of_safe _ (safe_append _ _ (safe_append _ _ hpre ho1) hjoin)),
    render_container d key hleaf]
  simp

/-- The turn of the loop for a child that is a container of leaves: one more
`,%s` is left after the hole. -/
theorem stepForm_flat (key : Str) (e : Str × Str × Desc) (hflat : e.2.2.isFlat = true)
    (he : entryOk e = true) (hkeys : keysOk e.2.2 = true) (hkey : pathOk key = true) :
    stepForm key e 1 := by
  obtain ⟨he1, he2, he3, he4⟩ := entryOk_facts _ he
  intro pre post hpre
  have hval1 : '$' ∉ e.1 ++ "%s,%s".toList := by
    simp only [List.mem_append, not_or]
    exact ⟨he2, by decide⟩
  have hshape : pre ++ (e.1 ++ "%s,%s".toList) ++ post
      = (pre ++ e.1) ++ '%' :: 's' :: (',' :: '%' :: 's' :: post) := by
    show pre ++ (e.1 ++ ['%', 's', ',', '%', 's']) ++ post = _
    simp
  rw [replace_hole_of_clean pre post _ (hasHole_of_safe pre hpre) hval1, hshape,
    createFuncStr_flat_in_template e.2.2 _ (pre ++ e.1) _ hflat hkeys
      (pathOk_child key _ hkey he3 he4) (safe_append _ _ hpre he1)]
  simp [junk]

/-! ## The body of a descriptor of depth at most two -/

theorem replace_commaHoleAll (str : Str) (hne : str ≠ []) :
    replace str [] (some commaHoleAllExp) = replaceAllAux [',', '%', 's'] [] 0 [] str := by
  simp only [replace, hne, if_false, jsReplace, Option.getD, commaHoleAllExp, if_true]
  rfl

/-- Removing every `,%s` after the last entry of the root: the pile of `,%s`
inside the literal and the one after its closing character all go. -/
theorem replaceAllAux_root (inner : Str) (c : Char) (hin : safe inner = true)
    (hc : safe [c] = true) :
    ∀ n : Nat, replaceAllAux [',', '%', 's'] [] 0 []
        (inner ++ (junk n ++ c :: [',', '%', 's'])) = inner ++ [c]
  | 0 => by
    have hshape : inner ++ (junk 0 ++ c :: [',', '%', 's'])
        = (inner ++ [c]) ++ ',' :: '%' :: 's' :: [] := by simp [junk]
    rw [hshape, replaceAllAux_commaHole_of_clean [] (inner ++ [c]) [] false
      (hasHole_of_safe _ (safe_append _ _ hin hc))]
    simp [replaceAllAux]
  | n + 1 => by
    have hshape : inner ++ (junk (n + 1) ++ c :: [',', '%', 's'])
        = inner ++ ',' :: '%' :: 's' :: (junk n ++ ([c] ++ ',' :: '%' :: 's' :: [])) := by
      simp [junk]
    rw [hshape, replaceAllAux_commaHole_of_clean _ inner [] false (hasHole_of_safe _ hin),
      replaceAllAux_junk, replaceAllAux_commaHole_of_clean [] [c] [] false (hasHole_of_safe _ hc)]
    simp [replaceAllAux]

/-- The expression built for a descriptor of depth at most two with clean field
names is its direct rendering at the path `obj`. -/
theorem createFuncExpr_depthTwo (d : Desc) (h2 : d.isDepthTwo = true) (hk : keysOk d = true) :
    createFuncExpr d = render d "obj".toList := by
  simp only [Desc.isDepthTwo, Bool.and_eq_true, Bool.not_eq_true', List.all_eq_true,
    List.isEmpty_eq_false, Bool.or_eq_true] at h2
  obtain ⟨⟨hleaf, hne⟩, hall⟩ := h2
  obtain ⟨ho1, hc1, ho2, hc2, ho3, hc3⟩ := opener_closer_facts d
  have hkey : pathOk "obj".toList = true := rfl
  have hentries := entryOk_entries d hk
  have hchild : ∀ e ∈ d.entries, e.2.2.isLeaf = true ∨ e.2.2.isFlat = true := by
    intro e he
    apply hall
    rw [children_eq_entries]
    exact List.mem_map.2 ⟨e, he, rfl⟩
  have hne2 : renderEntries d.entries "obj".toList ≠ [] := by
    intro h
    apply hne
    rw [children_eq_entries]
    simp only [renderEntries, List.map_eq_nil_iff] at h
    simp [h]
  have hsafe : ∀ e ∈ d.entries,
      safe (e.1 ++ render e.2.2 ("obj".toList ++ accessor e.2.1)) = true := by
    intro e he
    obtain ⟨he1, he2, he3, he4⟩ := entryOk_facts _ (hentries e he).1
    exact safe_append _ _ he1
      (render_ok _ _ (hentries e he).2 (pathOk_child _ _ hkey he3 he4)).1
  have hloop := entryLoop_form "obj".toList d.entries [d.opener]
    (d.closer :: [',', '%', 's']) ho1 hsafe (by
      intro e he
      by_cases hl : e.2.2.isLeaf = true
      · rw [if_pos hl]
        exact stepForm_leaf _ e hl (hentries e he).1 hkey
      · rw [if_neg hl]
        rcases hchild e he with h | h
        · exact absurd h hl
        · exact stepForm_flat _ e h (hentries e he).1 (hentries e he).2 hkey)
  rw [withCommas_eq_joinComma _ hne2] at hloop
  have hjoin : safe (joinComma (renderEntries d.entries "obj".toList)) = true := by
    apply safe_joinComma
    intro t ht
    obtain ⟨e, he, rfl⟩ := List.mem_map.1 ht
    exact hsafe e he
  have hinner : safe ([d.opener] ++ joinComma (renderEntries d.entries "obj".toList)) = true :=
    safe_append _ _ ho1 hjoin
  have hstr : createFuncStr d "obj".toList none
      = ([d.opener] ++ joinComma (renderEntries d.entries "obj".toList))
        ++ (junk (containerCount d.entries) ++ d.closer :: [',', '%', 's']) := by
    rw [createFuncStr_container d _ _ hleaf]
    simp only [Option.map]
    have hor : orStr none (d.opener :: '%' :: 's' :: d.closer :: [',', '%', 's'])
        = [d.opener] ++ '%' :: 's' :: (d.closer :: [',', '%', 's']) := rfl
    rw [hor, hloop]
    have hshape : [d.opener] ++ (joinComma (renderEntries d.entries "obj".toList) ++ [','])
          ++ '%' :: 's' :: (junk (containerCount d.entries) ++ d.closer :: [',', '%', 's'])
        = ([d.opener] ++ joinComma (renderEntries d.entries "obj".toList))
          ++ ',' :: '%' :: 's' :: (junk (containerCount d.entries)
            ++ d.closer :: [',', '%', 's']) := by
      simp
    rw [hshape, replace_commaHole_of_clean _ _ (hasHole_of_safe _ hinner)]
  rw [createFuncExpr, hstr, replace_commaHoleAll _ (by simp),
    replaceAllAux_root _ _ hinner hc1, render_container d _ hleaf]
  simp

/-- C15 (the template generator agrees with the direct renderer up to depth
two): for a descriptor whose root is a container with at least one child, each
child a leaf or a container of at least one leaf, with field names free of `%s`
and `$`, the body built by `createFunc` is `{ var newObj = R; return newObj; }`
with `R` the direct rendering of the descriptor at the path `obj`, and the body
has no `%s`. -/
theorem depthTwo_body_eq_render (d : Desc) (h2 : d.isDepthTwo = true) (hk : keysOk d = true) :
    createFuncBody d
        = "\x7b var newObj = ".toList ++ render d "obj".toList ++ "; return newObj; \x7d".toList
      ∧ hasHole (createFuncBody d) = false := by
  obtain ⟨hr1, hr2⟩ := render_ok d "obj".toList hk rfl
  have hbody : createFuncBody d
      = "\x7b var newObj = ".toList ++ render d "obj".toList
        ++ "; return newObj; \x7d".toList := by
    have hexpr := createFuncExpr_depthTwo d h2 hk
    unfold createFuncExpr at hexpr
    have hbase : "\x7b var newObj = %s; return newObj; \x7d".toList
        = "\x7b var newObj = ".toList ++ '%' :: 's' :: "; return newObj; \x7d".toList := by
      decide
    simp only [createFuncBody, hexpr]
    rw [hbase, replace_hole_of_clean _ _ _ (by decide) hr2]
  refine ⟨hbody, ?_⟩
  rw [hbody]
  exact hasHole_append_of_safe _ _ (safe_append _ _ rfl hr1) rfl

/-- Witness of C15: the descriptor `{a: 'number', b: ['string', 'null'], c: {d: 'boolean'}}`. -/
theorem depthTwo_body_eq_render_witness :
    (Desc.keyed [("a", .kind "number"), ("b", .seq [.kind "string", .kind "null"]),
        ("c", .keyed [("d", .kind "boolean")])]).isDepthTwo = true
      ∧ keysOk (.keyed [("a", .kind "number"), ("b", .seq [.kind "string", .kind "null"]),
        ("c", .keyed [("d", .kind "boolean")])]) = true
      ∧ (createFuncBody (.keyed [("a", .kind "number"),
            ("b", .seq [.kind "string", .kind "null"]), ("c", .keyed [("d", .kind "boolean")])])
          = "\x7b var newObj = ".toList
            ++ render (.keyed [("a", .kind "number"),
              ("b", .seq [.kind "string", .kind "null"]),
              ("c", .keyed [("d", .kind "boolean")])]) "obj".toList
            ++ "; return newObj; \x7d".toList
        ∧ hasHole (createFuncBody (.keyed [("a", .kind "number"),
            ("b", .seq [.kind "string", .kind "null"]),
            ("c", .keyed [("d", .kind "boolean")])])) = false) :=
  ⟨rfl, rfl, depthTwo_body_eq_render _ rfl rfl⟩

end Dcp
